import Mathlib

/-!
# mvnparser: the dynamic properties codec

A shallow embedding of `parser.go` (package `mvnparser`) and of the part of Go's
`encoding/xml` that `Properties.UnmarshalXML` and `Properties.MarshalXML` drive:
the token-level interface of `xml.Decoder` (`Token`, `Skip`, `DecodeElement` into a
string, the end-of-element mark of `pushEOF`) and of `xml.Encoder`
(`EncodeToken`, `Flush`), and the parts of `Marshal` and `Unmarshal` that write and
read the structs of the document model by the paths and the `omitempty` flags
of their tags.

Scope of the `encoding/xml` model: the decoder is in its default strict mode and
reads an already lexed, finite sequence of tokens; namespace prefix translation
(`stkNs` stack entries) is left out, names are compared as they stand.
-/

namespace mvnparser

/-! ## Tokens (`encoding/xml`) -/

/-- Go `xml.Name`. -/
structure Name where
  Space : String
  Local : String
deriving DecidableEq, Repr

/-- Go `xml.Attr`. -/
structure Attr where
  Name : Name
  Value : String
deriving DecidableEq, Repr

/-- Go `xml.StartElement`. -/
structure StartElement where
  Name : Name
  Attr : List Attr
deriving DecidableEq, Repr

/-- Go `xml.Token`: the dynamic type of a token value. -/
inductive Token where
  | StartElement (s : mvnparser.StartElement)
  | EndElement (name : Name)
  | CharData (data : String)
  | Comment (data : String)
  | ProcInst (target : String) (inst : String)
  | Directive (data : String)
deriving DecidableEq, Repr

/-- Go `error` values that occur: `io.EOF`, `*xml.SyntaxError` (by message), and
any other error (a writer's failure), by message. -/
inductive Error where
  | EOF
  | XMLSyntaxError (msg : String)
  | Other (msg : String)
deriving DecidableEq, Repr

/-! ## The decoder (`encoding/xml`, `xml.go` and `read.go`) -/

/-- One entry of the decoder's stack `d.stk`: an open element (`stkStart`) or the
mark below which `Token` reports `io.EOF` (`stkEOF`). -/
inductive Stack where
  | stkStart (name : Name)
  | stkEOF
deriving DecidableEq, Repr

/-- The state of an `xml.Decoder`: the tokens its reader still holds, the stack
of open elements, and the sticky error `d.err`. -/
structure Decoder where
  input : List Token
  stk : List Stack
  err : Option Error
deriving DecidableEq, Repr

/-- `d.rawToken()`: once `d.err` is set it is returned again on every call; the
end of the input sets `d.err = io.EOF`. -/
def Decoder.rawToken (d : Decoder) : Option Token × Option Error × Decoder :=
  match d.err with
  | some e => (none, some e, d)
  | none =>
    match d.input with
    | [] => (none, some Error.EOF, { d with err := some Error.EOF })
    | t :: rest => (some t, none, { d with input := rest })

/-- `d.popElement(t)`: pops the stack, then checks the popped entry against the
end element; on a mismatch `d.err` is set and `false` returned. -/
def Decoder.popElement (d : Decoder) (name : Name) : Bool × Decoder :=
  match d.stk with
  | [] =>
    (false, { d with err := some (Error.XMLSyntaxError
      ("unexpected end element </" ++ name.Local ++ ">")) })
  | Stack.stkEOF :: rest =>
    (false, { d with stk := rest, err := some (Error.XMLSyntaxError
      ("unexpected end element </" ++ name.Local ++ ">")) })
  | Stack.stkStart s :: rest =>
    if s.Local ≠ name.Local then
      (false, { d with stk := rest, err := some (Error.XMLSyntaxError
        ("element <" ++ s.Local ++ "> closed by </" ++ name.Local ++ ">")) })
    else if s.Space ≠ name.Space then
      (false, { d with stk := rest, err := some (Error.XMLSyntaxError
        ("element <" ++ s.Local ++ "> in space " ++ s.Space ++
          " closed by </" ++ name.Local ++ "> in space " ++ name.Space)) })
    else (true, { d with stk := rest })

/-- `d.Token()`: `io.EOF` while the top of the stack is the `stkEOF` mark; the end
of the input inside an open element is the syntax error `unexpected EOF`; a
start element is pushed, an end element popped and checked. -/
def Decoder.Token (d : Decoder) : Option Token × Option Error × Decoder :=
  if d.stk.head? = some Stack.stkEOF then (none, some Error.EOF, d)
  else
    match d.rawToken with
    | (none, e, d1) =>
      if e = some Error.EOF ∧ d1.stk ≠ [] ∧ d1.stk.head? ≠ some Stack.stkEOF then
        (none, some (Error.XMLSyntaxError "unexpected EOF"), d1)
      else (none, e, d1)
    | (some (Token.StartElement s), _, d1) =>
      (some (Token.StartElement s), none, { d1 with stk := Stack.stkStart s.Name :: d1.stk })
    | (some (Token.EndElement name), _, d1) =>
      match d1.popElement name with
      | (false, d2) => (none, d2.err, d2)
      | (true, d2) => (some (Token.EndElement name), none, d2)
    | (some t, _, d1) => (some t, none, d1)

/-- The loop of `d.Skip()`: reads tokens up to the end element that closes the
element already started, counting nested start elements in `depth`.
`none`: the fuel ran out. -/
def Decoder.skipLoop : Nat → Decoder → Nat → Option (Option Error × Decoder)
  | 0, _, _ => none
  | fuel + 1, d, depth =>
    match d.Token with
    | (_, some e, d1) => some (some e, d1)
    | (some (Token.StartElement _), none, d1) => Decoder.skipLoop fuel d1 (depth + 1)
    | (some (Token.EndElement _), none, d1) =>
      if depth = 0 then some (none, d1) else Decoder.skipLoop fuel d1 (depth - 1)
    | (_, none, d1) => Decoder.skipLoop fuel d1 depth

/-- `d.Skip()`; every round of the loop takes a token off the input or returns, so
one more round than there are tokens is enough. -/
def Decoder.Skip (d : Decoder) : Option (Option Error × Decoder) :=
  Decoder.skipLoop (d.input.length + 1) d 0

/-- The loop `Loop:` of `d.unmarshal(val, start, 0)` for `val` of kind string
(`saveData = val`): character data is appended to `data`, a nested element is
skipped, comments and the other tokens are dropped, the end element ends the
loop, and an error of `Token` or `Skip` is returned. `none`: the fuel ran out. -/
def Decoder.unmarshalLoop : Nat → Decoder → String → Option (String × Option Error × Decoder)
  | 0, _, _ => none
  | fuel + 1, d, data =>
    match d.Token with
    | (_, some e, d1) => some ("", some e, d1)
    | (some (Token.StartElement _), none, d1) =>
      match d1.Skip with
      | none => none
      | some (some e, d2) => some ("", some e, d2)
      | some (none, d2) => Decoder.unmarshalLoop fuel d2 data
    | (some (Token.EndElement _), none, d1) => some (data, none, d1)
    | (some (Token.CharData s), none, d1) => Decoder.unmarshalLoop fuel d1 (data ++ s)
    | (_, none, d1) => Decoder.unmarshalLoop fuel d1 data

/-- `d.DecodeElement(&value, &start)` for `value` a string holding `""`: the
result is the string left in `value` and the error. For a string the start
element passed is not looked at (it only serves struct and attribute decoding).
`copyValue` into a string cannot fail. -/
def Decoder.DecodeElement (d : Decoder) (_start : StartElement) :
    Option (String × Option Error × Decoder) :=
  Decoder.unmarshalLoop (d.input.length + 1) d ""

/-- The stack after `d.pushEOF()`: the `stkEOF` mark goes right below the topmost
`stkStart` entry. (Go walks down to that entry; `unmarshalInterface` calls
`pushEOF` right after the start element was read, so it is the top.) -/
def pushEOFStack : List Stack → List Stack
  | [] => []
  | Stack.stkStart n :: rest => Stack.stkStart n :: Stack.stkEOF :: rest
  | Stack.stkEOF :: rest => Stack.stkEOF :: pushEOFStack rest

/-- `d.pushEOF()`: records that `Token` must report `io.EOF` once the element
that is open now is closed. -/
def Decoder.pushEOF (d : Decoder) : Decoder :=
  { d with stk := pushEOFStack d.stk }

/-- `d.popEOF()`: removes the mark when it is on top of the stack. -/
def Decoder.popEOF (d : Decoder) : Bool × Decoder :=
  match d.stk with
  | Stack.stkEOF :: rest => (true, { d with stk := rest })
  | _ => (false, d)

/-! ## `Properties` (parser.go, line 115) -/

/-- A non-nil Go `map[string]string`: its entries, one per key. -/
abbrev PropertyMap := List (String × String)

/-- `m[key]`, with presence. -/
def PropertyMap.get? (m : PropertyMap) (key : String) : Option String :=
  match m with
  | [] => none
  | (k, v) :: rest => if k = key then some v else PropertyMap.get? rest key

/-- `m[key] = value`: overwrites the entry of `key` when there is one, adds an
entry otherwise. -/
def PropertyMap.set (m : PropertyMap) (key value : String) : PropertyMap :=
  match m with
  | [] => [(key, value)]
  | (k, v) :: rest =>
    if k = key then (k, value) :: rest else (k, v) :: PropertyMap.set rest key value

/-- `type Properties map[string]string`; `none` is the nil map. -/
abbrev Properties := Option PropertyMap

/-- The result of a call of `UnmarshalXML`: the returned error (`none` for
`nil`), the receiver `*p` and the decoder as the call leaves them. -/
structure Decoded where
  err : Option Error
  p : Properties
  d : Decoder
deriving DecidableEq, Repr

/-- The `for` loop of `Properties.UnmarshalXML` (parser.go, lines 119 to 135), one
round per unit of fuel; `m` is `*p`. `none`: the fuel ran out before the loop
was left. -/
def UnmarshalXML.loop (start : StartElement) : Nat → Decoder → PropertyMap → Option Decoded
  | 0, _, _ => none
  | fuel + 1, d, m =>
    match d.Token with
    | (token, err, d1) =>
      if err = some Error.EOF then some { err := none, p := some m, d := d1 }
      else
        match token with
        | some (Token.StartElement tokenType) =>
          match d1.DecodeElement start with
          | none => none
          | some (_, some e, d2) => some { err := some e, p := some m, d := d2 }
          | some (value, none, d2) =>
            UnmarshalXML.loop start fuel d2 (PropertyMap.set m tokenType.Name.Local value)
        | _ => UnmarshalXML.loop start fuel d1 m

/-- `func (p *Properties) UnmarshalXML(d *xml.Decoder, start xml.StartElement) error`
(parser.go, lines 117 to 137). `p` is the receiver before the call; line 118
replaces it by an empty map. -/
def UnmarshalXML (fuel : Nat) (_p : Properties) (d : Decoder) (start : StartElement) :
    Option Decoded :=
  UnmarshalXML.loop start fuel d []

/-- A child of the wrapper that is a text-only leaf: its start element and the
character data tokens between its start and its end. -/
structure Leaf where
  start : StartElement
  texts : List String
deriving DecidableEq, Repr

/-- The tokens of a leaf: start element, character data, matching end element. -/
def Leaf.tokens (c : Leaf) : List Token :=
  Token.StartElement c.start :: (c.texts.map Token.CharData ++ [Token.EndElement c.start.Name])

/-- The text of a leaf: its character data, concatenated. -/
def Leaf.text (c : Leaf) : String := c.texts.foldl (fun acc s => acc ++ s) ""

/-- The tokens of a sequence of leaves. -/
def leafTokens : List Leaf → List Token
  | [] => []
  | c :: cs => c.tokens ++ leafTokens cs

/-- A token that is neither a start nor an end element. -/
inductive Junk where
  | CharData (data : String)
  | Comment (data : String)
  | ProcInst (target : String) (inst : String)
  | Directive (data : String)
deriving DecidableEq, Repr

/-- The token that it is. -/
def Junk.token : Junk → Token
  | Junk.CharData s => Token.CharData s
  | Junk.Comment s => Token.Comment s
  | Junk.ProcInst a b => Token.ProcInst a b
  | Junk.Directive s => Token.Directive s

/-- The tokens of a sequence of leaves, each with the tokens that stand before it
(white space, comments and the like). -/
def itemTokens : List (List Junk × Leaf) → List Token
  | [] => []
  | (js, c) :: rest => js.map Junk.token ++ (c.tokens ++ itemTokens rest)

/-- The rounds of the loop that such a sequence takes: one per token between the
children, one per child. -/
def itemRounds : List (List Junk × Leaf) → Nat
  | [] => 0
  | (js, _) :: rest => js.length + (1 + itemRounds rest)

/-- The text of the last leaf named `key` (local name), if there is one. -/
def lastText : List Leaf → String → Option String
  | [], _ => none
  | c :: cs, key =>
    match lastText cs key with
    | some v => some v
    | none => if c.start.Name.Local = key then some c.text else none

/-- The map after the leaves `cs` were stored into `m` one after the other. -/
def storeLeaves (m : PropertyMap) : List Leaf → PropertyMap
  | [] => m
  | c :: cs => storeLeaves (PropertyMap.set m c.start.Name.Local c.text) cs

/-- The keys of a map, in the order of its entries. -/
def PropertyMap.keys (m : PropertyMap) : List String := m.map Prod.fst

/-! ## The encoder -/

/-- A call made on an `xml.Encoder`. -/
inductive Call where
  | EncodeToken (t : Token)
  | Flush
deriving DecidableEq, Repr

/-- An `xml.Encoder` with its writer, seen from the caller: `answer log c` is the
error (or `none` for nil) with which the call `c` is answered after the calls
`log`; `log` holds the calls made so far, oldest first. -/
structure Encoder where
  answer : List Call → Call → Option Error
  log : List Call

/-- `e.EncodeToken(t)`. -/
def Encoder.EncodeToken (e : Encoder) (t : Token) : Option Error × Encoder :=
  (e.answer e.log (Call.EncodeToken t), { e with log := e.log ++ [Call.EncodeToken t] })

/-- `e.Flush()`. -/
def Encoder.Flush (e : Encoder) : Option Error × Encoder :=
  (e.answer e.log Call.Flush, { e with log := e.log ++ [Call.Flush] })

/-- Lines 141 to 148 of `Properties.MarshalXML`: the slice `tokens`; `iter` is the
sequence of entries in the order in which `range s` visits them. -/
def MarshalXML.tokens (start : StartElement) (iter : List (String × String)) : List Token :=
  let tokens := [Token.StartElement start]
  let tokens := iter.foldl (fun tokens kv =>
    let t : StartElement := { Name := { Space := "", Local := kv.1 }, Attr := [] }
    tokens ++ [Token.StartElement t, Token.CharData kv.2, Token.EndElement t.Name]) tokens
  tokens ++ [Token.EndElement start.Name]

/-- Lines 150 to 155: `EncodeToken` on each token in turn, up to the first error. -/
def MarshalXML.encodeAll : List Token → Encoder → Option Error × Encoder
  | [], e => (none, e)
  | t :: ts, e =>
    match e.EncodeToken t with
    | (some err, e1) => (some err, e1)
    | (none, e1) => MarshalXML.encodeAll ts e1

/-- `func (s Properties) MarshalXML(e *xml.Encoder, start xml.StartElement) error`
(parser.go, lines 139 to 159); `iter` is the order of `range s`. -/
def MarshalXML (iter : List (String × String)) (e : Encoder) (start : StartElement) :
    Option Error × Encoder :=
  match MarshalXML.encodeAll (MarshalXML.tokens start iter) e with
  | (some err, e1) => (some err, e1)
  | (none, e1) => e1.Flush

/-- The entries of `s` as a `range` statement may visit them: each entry once, in
any order; the nil map has none. -/
def Properties.RangeOrder (s : Properties) (iter : List (String × String)) : Prop :=
  iter.Perm (s.getD [])

/-- The element that `MarshalXML` makes of one entry. -/
def entryTokens (kv : String × String) : List Token :=
  [Token.StartElement { Name := { Space := "", Local := kv.1 }, Attr := [] },
   Token.CharData kv.2,
   Token.EndElement { Space := "", Local := kv.1 }]

/-- The calls that `MarshalXML` has to make. -/
def marshalCalls (start : StartElement) (iter : List (String × String)) : List Call :=
  (MarshalXML.tokens start iter).map Call.EncodeToken ++ [Call.Flush]

/-- The answer of the encoder to one call. -/
def Encoder.call (e : Encoder) (c : Call) : Option Error × Encoder :=
  match c with
  | Call.EncodeToken t => e.EncodeToken t
  | Call.Flush => e.Flush

/-- A sequence of calls made in turn, up to the first error. -/
def Encoder.callAll : List Call → Encoder → Option Error × Encoder
  | [], e => (none, e)
  | c :: cs, e =>
    match e.call c with
    | (some err, e1) => (some err, e1)
    | (none, e1) => Encoder.callAll cs e1

/-- An encoder whose writer takes everything. -/
def okEncoder : Encoder := { answer := fun _ _ => none, log := [] }

/-- The leaf that the element of one entry is. -/
def entryLeaf (kv : String × String) : Leaf :=
  { start := { Name := { Space := "", Local := kv.1 }, Attr := [] }, texts := [kv.2] }

/-- An encoder whose writer refuses the character data `1` and takes the rest. -/
def refusingEncoder : Encoder :=
  { answer := fun _ c =>
      if c = Call.EncodeToken (Token.CharData "1") then some (Error.Other "short write") else none,
    log := [] }

/-! ## Simulations of the decoder -/

/-- The depth of open elements after a token was read at depth `k`. -/
def nextDepth (k : Nat) : Option Token → Nat
  | some (Token.StartElement _) => k + 1
  | some (Token.EndElement _) => k - 1
  | _ => k

/-- A relation between decoders, indexed by the depth of open elements, that one
call of `Token` at a depth above zero keeps: both calls give the same token and
the same error, and the decoders are related again at the depth reached. -/
def TokenSim (Q : Nat → Decoder → Decoder → Prop) : Prop :=
  ∀ k d d1, Q (k + 1) d d1 →
    (Decoder.Token d).1 = (Decoder.Token d1).1 ∧
    (Decoder.Token d).2.1 = (Decoder.Token d1).2.1 ∧
    Q (nextDepth (k + 1) (Decoder.Token d).1) (Decoder.Token d).2.2 (Decoder.Token d1).2.2

/-- The token stream without the tokens that are neither start nor end elements
(character data, comments, processing instructions, directives) and stand
between the children of the wrapper: `k` is the number of children open at
this point, and only at `k = 0` a token is left out. -/
def stripTop : Nat → List Token → List Token
  | _, [] => []
  | k, Token.StartElement s :: u => Token.StartElement s :: stripTop (k + 1) u
  | k, Token.EndElement n :: u => Token.EndElement n :: stripTop (k - 1) u
  | 0, _ :: u => stripTop 0 u
  | k + 1, t :: u => t :: stripTop (k + 1) u

/-- Two decoders in the same state, the second on the stripped input of the
first. -/
def StripRel (k : Nat) (d d1 : Decoder) : Prop :=
  d.stk = d1.stk ∧ d.err = d1.err ∧ (d.err = none → d1.input = stripTop k d.input)

/-- The next call of `Token` reads a token that is neither a start nor an end
element. -/
def junkHead (d : Decoder) : Bool :=
  d.err.isNone && (d.stk.head? != some Stack.stkEOF) &&
    match d.input with
    | [] => false
    | Token.StartElement _ :: _ => false
    | Token.EndElement _ :: _ => false
    | _ :: _ => true

/-- `closedBy k u`: with `k` children of the wrapper open, the last token of `u` is
the end element that closes the wrapper itself (start and end elements are
counted, their names are not compared). -/
def closedBy : Nat → List Token → Bool
  | _, [] => false
  | k, Token.StartElement _ :: u => closedBy (k + 1) u
  | 0, Token.EndElement _ :: u => u.isEmpty
  | k + 1, Token.EndElement _ :: u => closedBy k u
  | k, _ :: u => closedBy k u

/-- Two decoders in the same state but for the tokens `post` that the first holds
behind the input of the second; while no error is set, `k` elements are open
above the end mark and the input of the second ends where the outermost of
them is closed. -/
def TailRel (post : List Token) (k : Nat) (d d1 : Decoder) : Prop :=
  d.stk = d1.stk ∧ d.err = d1.err ∧ d.input = d1.input ++ post ∧
  (d1.err = none → ∃ L S, d1.stk = L ++ Stack.stkEOF :: S ∧ L.length = k ∧
    (∀ x ∈ L, x ≠ Stack.stkEOF) ∧ (∀ j, k = j + 1 → closedBy j d1.input = true))

/-! ## The document model (parser.go, lines 30 to 112) and `encoding/xml`'s `Marshal` -/

/-- `type Parent struct` (parser.go, line 52). -/
structure Parent where
  GroupId : String := ""
  ArtifactId : String := ""
  Version : String := ""
deriving DecidableEq, Repr

/-- `type Exclusion struct` (parser.go, line 71). -/
structure Exclusion where
  XMLName : Name := ⟨"", ""⟩
  GroupId : String := ""
  ArtifactId : String := ""
deriving DecidableEq, Repr

/-- `type Dependency struct` (parser.go, line 59); `Type_` is the field `Type`. -/
structure Dependency where
  XMLName : Name := ⟨"", ""⟩
  GroupId : String := ""
  ArtifactId : String := ""
  Version : String := ""
  Classifier : String := ""
  Type_ : String := ""
  Scope : String := ""
  Exclusions : List Exclusion := []
deriving DecidableEq, Repr

/-- `type DependencyManagement struct` (parser.go, line 77). -/
structure DependencyManagement where
  Dependencies : List Dependency := []
deriving DecidableEq, Repr

/-- `type Repository struct` (parser.go, line 82). -/
structure Repository where
  Id : String := ""
  Name : String := ""
  Url : String := ""
deriving DecidableEq, Repr

/-- `type Plugin struct` (parser.go, line 98). -/
structure Plugin where
  XMLName : Name := ⟨"", ""⟩
  GroupId : String := ""
  ArtifactId : String := ""
  Version : String := ""
deriving DecidableEq, Repr

/-- `type Build struct` (parser.go, line 93). -/
structure Build where
  Plugins : List Plugin := []
deriving DecidableEq, Repr

/-- `type Profile struct` (parser.go, line 88). -/
structure Profile where
  Id : String := ""
  Build : Build := {}
deriving DecidableEq, Repr

/-- `type PluginRepository struct` (parser.go, line 108). -/
structure PluginRepository where
  Id : String := ""
  Name : String := ""
  Url : String := ""
deriving DecidableEq, Repr

/-- `type MavenProject struct` (parser.go, line 31). -/
structure MavenProject where
  XMLName : Name := ⟨"", ""⟩
  ModelVersion : String := ""
  Parent : Parent := {}
  GroupId : String := ""
  ArtifactId : String := ""
  Version : String := ""
  Packaging : String := ""
  Name : String := ""
  Description : String := ""
  Repositories : List Repository := []
  Properties : Properties := none
  DependencyManagement : DependencyManagement := {}
  Dependencies : List Dependency := []
  Profiles : List Profile := []
  Build : Build := {}
  PluginRepositories : List PluginRepository := []
  Modules : List String := []
deriving DecidableEq, Repr

/-- What `marshalValue` does with one value: whether `isEmptyValue` holds of it
(zero length for a string, slice or map; never for a struct), and the tokens
written when it is not left out. -/
structure Marshalled where
  isEmpty : Bool
  body : List Token
deriving DecidableEq, Repr

/-- A struct field as `marshalStruct` meets it: the parent chain of its tag
(`a>b` has the parents `a`), the `omitempty` flag, and its value. -/
structure Field where
  parents : List String
  omitEmpty : Bool
  value : Marshalled
deriving DecidableEq, Repr

/-- The length of the common prefix of the parents wanted and the parents open. -/
def commonPrefix : List String → List String → Nat
  | p :: ps, s :: ss => if p = s then commonPrefix ps ss + 1 else 0
  | _, _ => 0

/-- `parentStack.trim(parents)`: closes the open parents beyond the common prefix,
innermost first. -/
def parentTrim (stack parents : List String) : List Token × List String :=
  let split := commonPrefix parents stack
  (((stack.drop split).reverse).map (fun n => Token.EndElement { Space := "", Local := n }),
    stack.take split)

/-- The guarded `parentStack.push` of `marshalStruct`: opens the parents that are
not open yet (the value is no pointer and no interface, so the guard on nil
does not apply). -/
def parentPush (stack parents : List String) : List Token × List String :=
  if parents.length > stack.length then
    ((parents.drop stack.length).map
        (fun n => Token.StartElement { Name := { Space := "", Local := n }, Attr := [] }),
      stack ++ parents.drop stack.length)
  else ([], stack)

/-- `marshalValue(vf, finfo, nil)` at its head: an empty value of an `omitempty`
field writes nothing. -/
def marshalValue (omitEmpty : Bool) (v : Marshalled) : List Token :=
  if omitEmpty && v.isEmpty then [] else v.body

/-- The loop of `marshalStruct` over the fields of a struct, with the stack of
open parents; `s.trim(nil)` at the end. -/
def marshalStruct.fields : List Field → List String → List Token
  | [], stack => (parentTrim stack []).1
  | f :: fs, stack =>
    let t1 := parentTrim stack f.parents
    let t2 := parentPush t1.2 f.parents
    t1.1 ++ t2.1 ++ marshalValue f.omitEmpty f.value ++ marshalStruct.fields fs t2.2

/-- `marshalStruct`. -/
def marshalStruct (fields : List Field) : List Token := marshalStruct.fields fields []

/-- A string value written as the element `name`. -/
def marshalString (name : String) (s : String) : Marshalled :=
  { isEmpty := s.length == 0,
    body := [Token.StartElement { Name := { Space := "", Local := name }, Attr := [] },
             Token.CharData s, Token.EndElement { Space := "", Local := name }] }

/-- A struct value written as the element `name`; a struct is never empty. -/
def marshalRecord (name : String) (fields : List Field) : Marshalled :=
  { isEmpty := false,
    body := Token.StartElement { Name := { Space := "", Local := name }, Attr := [] } ::
      (marshalStruct fields ++ [Token.EndElement { Space := "", Local := name }]) }

/-- A slice value: `marshalValue` on each element with the field's own flags, no
enclosing element. -/
def marshalSlice (omitEmpty : Bool) (elems : List Marshalled) : Marshalled :=
  { isEmpty := elems.length == 0,
    body := elems.flatMap (marshalValue omitEmpty) }

/-- A field tagged `name,omitempty` or `parent>name,omitempty`. -/
def field (parents : List String) (v : Marshalled) : Field :=
  { parents := parents, omitEmpty := true, value := v }

/-- The fields of `Parent`. -/
def Parent.fields (v : Parent) : List Field :=
  [field [] (marshalString "groupId" v.GroupId),
   field [] (marshalString "artifactId" v.ArtifactId),
   field [] (marshalString "version" v.Version)]

/-- The fields of `Exclusion`. -/
def Exclusion.fields (v : Exclusion) : List Field :=
  [field [] (marshalString "groupId" v.GroupId),
   field [] (marshalString "artifactId" v.ArtifactId)]

/-- The fields of `Dependency`; its elements are named by its `XMLName` tag. -/
def Dependency.fields (v : Dependency) : List Field :=
  [field [] (marshalString "groupId" v.GroupId),
   field [] (marshalString "artifactId" v.ArtifactId),
   field [] (marshalString "version" v.Version),
   field [] (marshalString "classifier" v.Classifier),
   field [] (marshalString "type" v.Type_),
   field [] (marshalString "scope" v.Scope),
   field ["exclusions"]
     (marshalSlice true (v.Exclusions.map (fun x => marshalRecord "exclusion" x.fields)))]

/-- The fields of `DependencyManagement`. -/
def DependencyManagement.fields (v : DependencyManagement) : List Field :=
  [field ["dependencies"]
     (marshalSlice true (v.Dependencies.map (fun x => marshalRecord "dependency" x.fields)))]

/-- The fields of `Repository`. -/
def Repository.fields (v : Repository) : List Field :=
  [field [] (marshalString "id" v.Id),
   field [] (marshalString "name" v.Name),
   field [] (marshalString "url" v.Url)]

/-- The fields of `Plugin`. -/
def Plugin.fields (v : Plugin) : List Field :=
  [field [] (marshalString "groupId" v.GroupId),
   field [] (marshalString "artifactId" v.ArtifactId),
   field [] (marshalString "version" v.Version)]

/-- The fields of `Build`. -/
def Build.fields (v : Build) : List Field :=
  [field ["plugins"]
     (marshalSlice true (v.Plugins.map (fun x => marshalRecord "plugin" x.fields)))]

/-- The fields of `Profile`. -/
def Profile.fields (v : Profile) : List Field :=
  [field [] (marshalString "id" v.Id),
   field [] (marshalRecord "build" v.Build.fields)]

/-- The fields of `PluginRepository`. -/
def PluginRepository.fields (v : PluginRepository) : List Field :=
  [field [] (marshalString "id" v.Id),
   field [] (marshalString "name" v.Name),
   field [] (marshalString "url" v.Url)]

/-- The `Properties` field: empty when the map has no entry (the nil map too);
otherwise the tokens of `MarshalXML` with the start element `properties`, on an
encoder that takes them; `iter` is the order of `range`. -/
def marshalProperties (s : Properties) (iter : List (String × String)) : Marshalled :=
  { isEmpty := (s.getD []).length == 0,
    body := MarshalXML.tokens { Name := { Space := "", Local := "properties" }, Attr := [] } iter }

/-- The fields of `MavenProject`, in the order of the declaration. -/
def MavenProject.fields (v : MavenProject) (iter : List (String × String)) : List Field :=
  [field [] (marshalString "modelVersion" v.ModelVersion),
   field [] (marshalRecord "parent" v.Parent.fields),
   field [] (marshalString "groupId" v.GroupId),
   field [] (marshalString "artifactId" v.ArtifactId),
   field [] (marshalString "version" v.Version),
   field [] (marshalString "packaging" v.Packaging),
   field [] (marshalString "name" v.Name),
   field [] (marshalString "description" v.Description),
   field ["repositories"]
     (marshalSlice true (v.Repositories.map (fun x => marshalRecord "repository" x.fields))),
   field [] (marshalProperties v.Properties iter),
   field [] (marshalRecord "dependencyManagement" v.DependencyManagement.fields),
   field ["dependencies"]
     (marshalSlice true (v.Dependencies.map (fun x => marshalRecord "dependency" x.fields))),
   field [] (marshalSlice true (v.Profiles.map (fun x => marshalRecord "profiles" x.fields))),
   field [] (marshalRecord "build" v.Build.fields),
   field ["pluginRepositories"]
     (marshalSlice true
       (v.PluginRepositories.map (fun x => marshalRecord "pluginRepository" x.fields))),
   field ["modules"] (marshalSlice true (v.Modules.map (fun x => marshalString "module" x)))]

/-- `xml.Marshal(v)` for a `MavenProject`, as the sequence of tokens printed; the
root element is named by the `XMLName` tag. -/
def MavenProject.marshal (v : MavenProject) (iter : List (String × String)) : List Token :=
  (marshalRecord "project" (v.fields iter)).body

/-! ## `encoding/xml`'s `Unmarshal` into the structs of the document model

The struct case of `d.unmarshal` and `d.unmarshalPath` (`read.go`), driven by
the paths of the field tags. The bound `maxUnmarshalDepth` on the nesting is
left out. -/

/-- The outcome of unmarshalling into a value: the error returned (`none` for
nil), the value as it is left, and the decoder; `none`: the fuel ran out. -/
abbrev Unmarshalled (α : Type) := Option (Option Error × α × Decoder)

/-- A field of a struct as `unmarshalPath` meets it: the parent chain and the
name of its tag, and `d.unmarshal(finfo.value(sv), start, depth+1)` on it. -/
structure FieldInfo (α : Type) where
  parents : List String
  name : String
  store : Nat → Decoder → StartElement → α → Unmarshalled α

/-- What the loop over `tinfo.fields` in `unmarshalPath` finds for a start
element: a field whose path it completes, a longer chain of parents it is on,
or nothing. -/
inductive PathMatch (α : Type) where
  | perfect (f : FieldInfo α)
  | parent (parents : List String)
  | nothing

/-- The loop over `tinfo.fields` of `unmarshalPath`, for the start element with
the local name `loc` below the parents `parents`. -/
def matchPath {α : Type} : List (FieldInfo α) → List String → String → PathMatch α
  | [], _, _ => PathMatch.nothing
  | f :: fs, parents, loc =>
    if f.parents.length < parents.length then matchPath fs parents loc
    else if f.parents.take parents.length ≠ parents then matchPath fs parents loc
    else if f.parents.length = parents.length ∧ f.name = loc then PathMatch.perfect f
    else if f.parents.length > parents.length ∧ f.parents.get? parents.length = some loc then
      PathMatch.parent (f.parents.take (parents.length + 1))
    else matchPath fs parents loc

/-- The path that a match stands for: the parents, and the field name when the
match is perfect. -/
def PathMatch.path {α : Type} : PathMatch α → Option (List String × Option String)
  | PathMatch.perfect f => some (f.parents, some f.name)
  | PathMatch.parent ps => some (ps, none)
  | PathMatch.nothing => none

/-- The loop `Loop:` of `d.unmarshal` on a struct (`parents` empty) and the `for`
loop of `d.unmarshalPath` below a chain of parents: a start element goes to
the field it completes, or opens a further parent, or is skipped; the end
element ends the loop; other tokens are dropped (the structs of this model
save neither character data nor comments). -/
def pathLoop {α : Type} (info : List (FieldInfo α)) :
    Nat → Decoder → List String → α → Unmarshalled α
  | 0, _, _, _ => none
  | fuel + 1, d, parents, v =>
    match d.Token with
    | (_, some e, d1) => some (some e, v, d1)
    | (some (Token.StartElement t), none, d1) =>
      match matchPath info parents t.Name.Local with
      | PathMatch.perfect f =>
        match f.store fuel d1 t v with
        | none => none
        | some (some e, v1, d2) => some (some e, v1, d2)
        | some (none, v1, d2) => pathLoop info fuel d2 parents v1
      | PathMatch.parent ps =>
        match pathLoop info fuel d1 ps v with
        | none => none
        | some (some e, v1, d2) => some (some e, v1, d2)
        | some (none, v1, d2) => pathLoop info fuel d2 parents v1
      | PathMatch.nothing =>
        match d1.Skip with
        | none => none
        | some (some e, d2) => some (some e, v, d2)
        | some (none, d2) => pathLoop info fuel d2 parents v
    | (some (Token.EndElement _), none, d1) => some (none, v, d1)
    | (_, none, d1) => pathLoop info fuel d1 parents v

/-- `d.unmarshal` on a struct: the check of the element name against the tag of
`XMLName` (when the struct has that field) and its assignment, then the loop. -/
def unmarshalRecord {α : Type} (xmlname : Option String) (setName : α → Name → α)
    (info : List (FieldInfo α)) (fuel : Nat) (d : Decoder) (start : StartElement) (v : α) :
    Unmarshalled α :=
  match xmlname with
  | some n =>
    if n ≠ start.Name.Local then
      some (some (Error.Other
        ("expected element type <" ++ n ++ "> but have <" ++ start.Name.Local ++ ">")), v, d)
    else pathLoop info fuel d [] (setName v start.Name)
  | none => pathLoop info fuel d [] v

/-- `d.unmarshal` on a string: the value is replaced by the character data of the
element. -/
def unmarshalString (_fuel : Nat) (d : Decoder) (start : StartElement) (s : String) :
    Unmarshalled String :=
  match d.DecodeElement start with
  | none => none
  | some (_, some e, d1) => some (some e, s, d1)
  | some (data, none, d1) => some (none, data, d1)

/-- A field that is a value (a string or a struct): unmarshalled in place. -/
def storeValue {α β : Type} (unm : Nat → Decoder → StartElement → β → Unmarshalled β)
    (get : α → β) (set : α → β → α) (fuel : Nat) (d : Decoder) (start : StartElement) (v : α) :
    Unmarshalled α :=
  match unm fuel d start (get v) with
  | none => none
  | some (e, b, d1) => some (e, set v b, d1)

/-- A field that is a slice: the slice grows by one zero element, the element is
unmarshalled, and on an error the slice is cut back. -/
def storeSlice {α β : Type} (unm : Nat → Decoder → StartElement → β → Unmarshalled β)
    (zero : β) (get : α → List β) (set : α → List β → α)
    (fuel : Nat) (d : Decoder) (start : StartElement) (v : α) : Unmarshalled α :=
  match unm fuel d start zero with
  | none => none
  | some (some e, _, d1) => some (some e, v, d1)
  | some (none, b, d1) => some (none, set v (get v ++ [b]), d1)

/-- `d.unmarshalInterface` on `*Properties`: the end mark, `UnmarshalXML`, and the
check that the element was consumed. -/
def unmarshalInterface (fuel : Nat) (d : Decoder) (start : StartElement) (p : Properties) :
    Unmarshalled Properties :=
  match UnmarshalXML fuel p d.pushEOF start with
  | none => none
  | some r =>
    match r.err with
    | some e => some (some e, r.p, r.d.popEOF.2)
    | none =>
      match r.d.popEOF with
      | (false, d1) =>
        some (some (Error.Other ("xml: (*mvnparser.Properties).UnmarshalXML did not consume entire <"
          ++ start.Name.Local ++ "> element")), r.p, d1)
      | (true, d1) => some (none, r.p, d1)

/-- The fields of `Parent` with their paths. -/
def Parent.info : List (FieldInfo Parent) :=
  [⟨[], "groupId", storeValue unmarshalString (·.GroupId) (fun v s => { v with GroupId := s })⟩,
   ⟨[], "artifactId",
      storeValue unmarshalString (·.ArtifactId) (fun v s => { v with ArtifactId := s })⟩,
   ⟨[], "version", storeValue unmarshalString (·.Version) (fun v s => { v with Version := s })⟩]

/-- `d.unmarshal` on a `Parent`. -/
def Parent.unmarshal : Nat → Decoder → StartElement → Parent → Unmarshalled Parent :=
  unmarshalRecord none (fun v _ => v) Parent.info

/-- The fields of `Exclusion` with their paths. -/
def Exclusion.info : List (FieldInfo Exclusion) :=
  [⟨[], "groupId", storeValue unmarshalString (·.GroupId) (fun v s => { v with GroupId := s })⟩,
   ⟨[], "artifactId",
      storeValue unmarshalString (·.ArtifactId) (fun v s => { v with ArtifactId := s })⟩]

/-- `d.unmarshal` on an `Exclusion`; the element must be named `exclusion`. -/
def Exclusion.unmarshal : Nat → Decoder → StartElement → Exclusion → Unmarshalled Exclusion :=
  unmarshalRecord (some "exclusion") (fun v n => { v with XMLName := n }) Exclusion.info

/-- The fields of `Dependency` with their paths. -/
def Dependency.info : List (FieldInfo Dependency) :=
  [⟨[], "groupId", storeValue unmarshalString (·.GroupId) (fun v s => { v with GroupId := s })⟩,
   ⟨[], "artifactId",
      storeValue unmarshalString (·.ArtifactId) (fun v s => { v with ArtifactId := s })⟩,
   ⟨[], "version", storeValue unmarshalString (·.Version) (fun v s => { v with Version := s })⟩,
   ⟨[], "classifier",
      storeValue unmarshalString (·.Classifier) (fun v s => { v with Classifier := s })⟩,
   ⟨[], "type", storeValue unmarshalString (·.Type_) (fun v s => { v with Type_ := s })⟩,
   ⟨[], "scope", storeValue unmarshalString (·.Scope) (fun v s => { v with Scope := s })⟩,
   ⟨["exclusions"], "exclusion",
      storeSlice Exclusion.unmarshal {} (·.Exclusions) (fun v xs => { v with Exclusions := xs })⟩]

/-- `d.unmarshal` on a `Dependency`; the element must be named `dependency`. -/
def Dependency.unmarshal : Nat → Decoder → StartElement → Dependency → Unmarshalled Dependency :=
  unmarshalRecord (some "dependency") (fun v n => { v with XMLName := n }) Dependency.info

/-- The fields of `DependencyManagement` with their paths. -/
def DependencyManagement.info : List (FieldInfo DependencyManagement) :=
  [⟨["dependencies"], "dependency",
      storeSlice Dependency.unmarshal {} (·.Dependencies)
        (fun v xs => { v with Dependencies := xs })⟩]

/-- `d.unmarshal` on a `DependencyManagement`. -/
def DependencyManagement.unmarshal :
    Nat → Decoder → StartElement → DependencyManagement → Unmarshalled DependencyManagement :=
  unmarshalRecord none (fun v _ => v) DependencyManagement.info

/-- The fields of `Repository` with their paths. -/
def Repository.info : List (FieldInfo Repository) :=
  [⟨[], "id", storeValue unmarshalString (·.Id) (fun v s => { v with Id := s })⟩,
   ⟨[], "name", storeValue unmarshalString (·.Name) (fun v s => { v with Name := s })⟩,
   ⟨[], "url", storeValue unmarshalString (·.Url) (fun v s => { v with Url := s })⟩]

/-- `d.unmarshal` on a `Repository`. -/
def Repository.unmarshal : Nat → Decoder → StartElement → Repository → Unmarshalled Repository :=
  unmarshalRecord none (fun v _ => v) Repository.info

/-- The fields of `Plugin` with their paths. -/
def Plugin.info : List (FieldInfo Plugin) :=
  [⟨[], "groupId", storeValue unmarshalString (·.GroupId) (fun v s => { v with GroupId := s })⟩,
   ⟨[], "artifactId",
      storeValue unmarshalString (·.ArtifactId) (fun v s => { v with ArtifactId := s })⟩,
   ⟨[], "version", storeValue unmarshalString (·.Version) (fun v s => { v with Version := s })⟩]

/-- `d.unmarshal` on a `Plugin`; the element must be named `plugin`. -/
def Plugin.unmarshal : Nat → Decoder → StartElement → Plugin → Unmarshalled Plugin :=
  unmarshalRecord (some "plugin") (fun v n => { v with XMLName := n }) Plugin.info

/-- The fields of `Build` with their paths. -/
def Build.info : List (FieldInfo Build) :=
  [⟨["plugins"], "plugin",
      storeSlice Plugin.unmarshal {} (·.Plugins) (fun v xs => { v with Plugins := xs })⟩]

/-- `d.unmarshal` on a `Build`. -/
def Build.unmarshal : Nat → Decoder → StartElement → Build → Unmarshalled Build :=
  unmarshalRecord none (fun v _ => v) Build.info

/-- The fields of `Profile` with their paths. -/
def Profile.info : List (FieldInfo Profile) :=
  [⟨[], "id", storeValue unmarshalString (·.Id) (fun v s => { v with Id := s })⟩,
   ⟨[], "build", storeValue Build.unmarshal (·.Build) (fun v b => { v with Build := b })⟩]

/-- `d.unmarshal` on a `Profile`. -/
def Profile.unmarshal : Nat → Decoder → StartElement → Profile → Unmarshalled Profile :=
  unmarshalRecord none (fun v _ => v) Profile.info

/-- The fields of `PluginRepository` with their paths. -/
def PluginRepository.info : List (FieldInfo PluginRepository) :=
  [⟨[], "id", storeValue unmarshalString (·.Id) (fun v s => { v with Id := s })⟩,
   ⟨[], "name", storeValue unmarshalString (·.Name) (fun v s => { v with Name := s })⟩,
   ⟨[], "url", storeValue unmarshalString (·.Url) (fun v s => { v with Url := s })⟩]

/-- `d.unmarshal` on a `PluginRepository`. -/
def PluginRepository.unmarshal :
    Nat → Decoder → StartElement → PluginRepository → Unmarshalled PluginRepository :=
  unmarshalRecord none (fun v _ => v) PluginRepository.info

/-- The fields of `MavenProject` with their paths, in the order of the
declaration (parser.go, lines 33 to 48). -/
def MavenProject.info : List (FieldInfo MavenProject) :=
  [⟨[], "modelVersion",
      storeValue unmarshalString (·.ModelVersion) (fun v s => { v with ModelVersion := s })⟩,
   ⟨[], "parent", storeValue Parent.unmarshal (·.Parent) (fun v b => { v with Parent := b })⟩,
   ⟨[], "groupId", storeValue unmarshalString (·.GroupId) (fun v s => { v with GroupId := s })⟩,
   ⟨[], "artifactId",
      storeValue unmarshalString (·.ArtifactId) (fun v s => { v with ArtifactId := s })⟩,
   ⟨[], "version", storeValue unmarshalString (·.Version) (fun v s => { v with Version := s })⟩,
   ⟨[], "packaging",
      storeValue unmarshalString (·.Packaging) (fun v s => { v with Packaging := s })⟩,
   ⟨[], "name", storeValue unmarshalString (·.Name) (fun v s => { v with Name := s })⟩,
   ⟨[], "description",
      storeValue unmarshalString (·.Description) (fun v s => { v with Description := s })⟩,
   ⟨["repositories"], "repository",
      storeSlice Repository.unmarshal {} (·.Repositories)
        (fun v xs => { v with Repositories := xs })⟩,
   ⟨[], "properties",
      storeValue unmarshalInterface (·.Properties) (fun v b => { v with Properties := b })⟩,
   ⟨[], "dependencyManagement",
      storeValue DependencyManagement.unmarshal (·.DependencyManagement)
        (fun v b => { v with DependencyManagement := b })⟩,
   ⟨["dependencies"], "dependency",
      storeSlice Dependency.unmarshal {} (·.Dependencies)
        (fun v xs => { v with Dependencies := xs })⟩,
   ⟨[], "profiles",
      storeSlice Profile.unmarshal {} (·.Profiles) (fun v xs => { v with Profiles := xs })⟩,
   ⟨[], "build", storeValue Build.unmarshal (·.Build) (fun v b => { v with Build := b })⟩,
   ⟨["pluginRepositories"], "pluginRepository",
      storeSlice PluginRepository.unmarshal {} (·.PluginRepositories)
        (fun v xs => { v with PluginRepositories := xs })⟩,
   ⟨["modules"], "module",
      storeSlice unmarshalString "" (·.Modules) (fun v xs => { v with Modules := xs })⟩]

/-- `d.unmarshal` on a `MavenProject`; the element must be named `project`. -/
def MavenProject.unmarshal :
    Nat → Decoder → StartElement → MavenProject → Unmarshalled MavenProject :=
  unmarshalRecord (some "project") (fun v n => { v with XMLName := n }) MavenProject.info

/-- The `exclusions` element that `Marshal` writes for a sequence of exclusions. -/
def exclusionsTokens (xs : List Exclusion) : List Token :=
  Token.StartElement { Name := { Space := "", Local := "exclusions" }, Attr := [] } ::
    (xs.flatMap (fun x => (marshalRecord "exclusion" x.fields).body) ++
      [Token.EndElement { Space := "", Local := "exclusions" }])

/-- An exclusion as it is decoded from an element named `exclusion`: `XMLName`
holds the name of the element. -/
def Exclusion.named (x : Exclusion) : Exclusion :=
  { x with XMLName := { Space := "", Local := "exclusion" } }

/-- A child `profile` holding the leaf `id`. -/
def profileChild (id : String) : List Token :=
  [Token.StartElement { Name := { Space := "", Local := "profile" }, Attr := [] },
   Token.StartElement { Name := { Space := "", Local := "id" }, Attr := [] },
   Token.CharData id,
   Token.EndElement { Space := "", Local := "id" },
   Token.EndElement { Space := "", Local := "profile" }]

/-- A wrapper `profiles` holding one child `profile` per identifier. -/
def profilesWrapper (ids : List String) : List Token :=
  Token.StartElement { Name := { Space := "", Local := "profiles" }, Attr := [] } ::
    (ids.flatMap profileChild ++ [Token.EndElement { Space := "", Local := "profiles" }])

/-- A dependency with two exclusions. -/
def twoExclusions : Dependency :=
  { GroupId := "g",
    Exclusions := [{ GroupId := "x", ArtifactId := "y" }, { GroupId := "z" }] }

/-- The same dependency as it is decoded: the names of the elements are in place. -/
def twoExclusionsDecoded : Dependency :=
  { XMLName := { Space := "", Local := "dependency" },
    GroupId := "g",
    Exclusions := [{ XMLName := { Space := "", Local := "exclusion" },
                     GroupId := "x", ArtifactId := "y" },
                   { XMLName := { Space := "", Local := "exclusion" }, GroupId := "z" }] }

/-- An element `profiles` holding the leaf `id` as its direct child. -/
def profilesElement (id : String) : List Token :=
  [Token.StartElement { Name := { Space := "", Local := "profiles" }, Attr := [] },
   Token.StartElement { Name := { Space := "", Local := "id" }, Attr := [] },
   Token.CharData id,
   Token.EndElement { Space := "", Local := "id" },
   Token.EndElement { Space := "", Local := "profiles" }]

/-! ## Theorems -/

/-! ### Single calls of `Token`; the loop on leaf children -/

theorem Token_start (s : StartElement) (rest : List Token) (S : List Stack)
    (h : S.head? ≠ some Stack.stkEOF) :
    Decoder.Token { input := Token.StartElement s :: rest, stk := S, err := none } =
      (some (Token.StartElement s), none,
        { input := rest, stk := Stack.stkStart s.Name :: S, err := none }) := by
  simp [Decoder.Token, Decoder.rawToken, h]

theorem Token_end (n : Name) (rest : List Token) (S : List Stack) :
    Decoder.Token { input := Token.EndElement n :: rest, stk := Stack.stkStart n :: S, err := none } =
      (some (Token.EndElement n), none, { input := rest, stk := S, err := none }) := by
  simp [Decoder.Token, Decoder.rawToken, Decoder.popElement]

theorem Token_chardata (s : String) (rest : List Token) (S : List Stack)
    (h : S.head? ≠ some Stack.stkEOF) :
    Decoder.Token { input := Token.CharData s :: rest, stk := S, err := none } =
      (some (Token.CharData s), none, { input := rest, stk := S, err := none }) := by
  simp [Decoder.Token, Decoder.rawToken, h]

theorem Token_mark (input : List Token) (S : List Stack) (e : Option Error) :
    Decoder.Token { input := input, stk := Stack.stkEOF :: S, err := e } =
      (none, some Error.EOF, { input := input, stk := Stack.stkEOF :: S, err := e }) := by
  simp [Decoder.Token]

theorem Token_end_of_input :
    Decoder.Token { input := [], stk := [], err := none } =
      (none, some Error.EOF, { input := [], stk := [], err := some Error.EOF }) := by
  simp [Decoder.Token, Decoder.rawToken]

theorem unmarshalLoop_texts (n : Name) (S : List Stack) (tail : List Token) :
    ∀ (texts : List String) (data : String) (extra : Nat),
      Decoder.unmarshalLoop (texts.length + 1 + extra)
        { input := texts.map Token.CharData ++ Token.EndElement n :: tail,
          stk := Stack.stkStart n :: S, err := none } data =
      some (texts.foldl (fun acc s => acc ++ s) data, none,
        { input := tail, stk := S, err := none })
  | [], data, extra => by
    have h : ([] : List String).length + 1 + extra = extra + 1 := by simp; omega
    rw [h]
    simp [Decoder.unmarshalLoop, Token_end]
  | t :: texts, data, extra => by
    have h : (t :: texts).length + 1 + extra = (texts.length + 1 + extra) + 1 := by
      simp; omega
    rw [h]
    have ih := unmarshalLoop_texts n S tail texts (data ++ t) extra
    simp [Decoder.unmarshalLoop, Token_chardata, ih]

theorem DecodeElement_leaf (n : Name) (S : List Stack) (tail : List Token)
    (texts : List String) (start : StartElement) :
    Decoder.DecodeElement
        { input := texts.map Token.CharData ++ Token.EndElement n :: tail,
          stk := Stack.stkStart n :: S, err := none } start =
      some (texts.foldl (fun acc s => acc ++ s) "", none,
        { input := tail, stk := S, err := none }) := by
  unfold Decoder.DecodeElement
  have h : (texts.map Token.CharData ++ Token.EndElement n :: tail).length + 1
      = texts.length + 1 + (tail.length + 1) := by
    simp; omega
  simp only [h]
  exact unmarshalLoop_texts n S tail texts "" (tail.length + 1)

theorem loop_leaves (start : StartElement) (S : List Stack) (tail : List Token)
    (hS : S.head? ≠ some Stack.stkEOF) :
    ∀ (cs : List Leaf) (m : PropertyMap) (fuel : Nat),
      UnmarshalXML.loop start (cs.length + fuel)
          { input := leafTokens cs ++ tail, stk := S, err := none } m =
        UnmarshalXML.loop start fuel { input := tail, stk := S, err := none } (storeLeaves m cs)
  | [], m, fuel => by simp [leafTokens, storeLeaves]
  | c :: cs, m, fuel => by
    have h : (c :: cs).length + fuel = (cs.length + fuel) + 1 := by simp; omega
    rw [h]
    have ih := loop_leaves start S tail hS cs (PropertyMap.set m c.start.Name.Local c.text) fuel
    have hd := DecodeElement_leaf c.start.Name S (leafTokens cs ++ tail) c.texts start
    simp only [leafTokens, Leaf.tokens, List.cons_append, List.append_assoc, List.singleton_append,
      UnmarshalXML.loop, Token_start _ _ _ hS, storeLeaves]
    simp only [List.nil_append, hd]
    simpa [Leaf.text] using ih

/-- The wrapper's end element under the mark of `pushEOF`: the loop reads it, then
`Token` reports `io.EOF` and the loop is left; what follows stays unread. -/
theorem loop_close_marked (start : StartElement) (n : Name) (outer : List Stack)
    (rest : List Token) (m : PropertyMap) (fuel : Nat) :
    UnmarshalXML.loop start (fuel + 2)
        { input := Token.EndElement n :: rest,
          stk := Stack.stkStart n :: Stack.stkEOF :: outer, err := none } m =
      some { err := none, p := some m,
             d := { input := rest, stk := Stack.stkEOF :: outer, err := none } } := by
  simp [UnmarshalXML.loop, Token_end, Token_mark]

/-- The wrapper's end element as the last token of the input of a decoder without
mark: the loop reads it, then `Token` reports `io.EOF`. -/
theorem loop_close_last (start : StartElement) (n : Name) (m : PropertyMap) (fuel : Nat) :
    UnmarshalXML.loop start (fuel + 2)
        { input := [Token.EndElement n], stk := [Stack.stkStart n], err := none } m =
      some { err := none, p := some m,
             d := { input := [], stk := [], err := some Error.EOF } } := by
  simp [UnmarshalXML.loop, Token_end, Token_end_of_input]

/-! ### Facts on maps -/

theorem PropertyMap.get?_set_self (m : PropertyMap) (key value : String) :
    PropertyMap.get? (PropertyMap.set m key value) key = some value := by
  induction m with
  | nil => simp [PropertyMap.set, PropertyMap.get?]
  | cons e m ih =>
    obtain ⟨k, v⟩ := e
    by_cases h : k = key
    · simp [PropertyMap.set, PropertyMap.get?, h]
    · simp [PropertyMap.set, PropertyMap.get?, h, ih]

theorem PropertyMap.get?_set_ne (m : PropertyMap) (key value other : String)
    (hne : key ≠ other) :
    PropertyMap.get? (PropertyMap.set m key value) other = PropertyMap.get? m other := by
  induction m with
  | nil => simp [PropertyMap.set, PropertyMap.get?, hne]
  | cons e m ih =>
    obtain ⟨k, v⟩ := e
    by_cases h : k = key
    · subst h
      simp [PropertyMap.set, PropertyMap.get?, hne]
    · simp [PropertyMap.set, PropertyMap.get?, h, ih]

theorem PropertyMap.mem_keys_set (m : PropertyMap) (key value other : String) :
    other ∈ PropertyMap.keys (PropertyMap.set m key value) ↔
      other = key ∨ other ∈ PropertyMap.keys m := by
  induction m with
  | nil => simp [PropertyMap.set, PropertyMap.keys]
  | cons e m ih =>
    obtain ⟨k, v⟩ := e
    by_cases h : k = key
    · subst h
      simp [PropertyMap.set, PropertyMap.keys]
    · simp only [PropertyMap.keys] at ih
      simp only [PropertyMap.set, h, if_false, PropertyMap.keys, List.map_cons, List.mem_cons, ih]
      tauto

theorem PropertyMap.nodup_keys_set (m : PropertyMap) (key value : String)
    (hm : (PropertyMap.keys m).Nodup) :
    (PropertyMap.keys (PropertyMap.set m key value)).Nodup := by
  induction m with
  | nil => simp [PropertyMap.set, PropertyMap.keys]
  | cons e m ih =>
    obtain ⟨k, v⟩ := e
    by_cases h : k = key
    · subst h
      simpa [PropertyMap.set, PropertyMap.keys] using hm
    · have hm2 : k ∉ PropertyMap.keys m ∧ (PropertyMap.keys m).Nodup := by
        simpa [PropertyMap.keys] using hm
      have hk : k ∉ PropertyMap.keys (PropertyMap.set m key value) := by
        rw [PropertyMap.mem_keys_set]
        intro hc
        rcases hc with hc | hc
        · exact h hc
        · exact hm2.1 hc
      have := ih hm2.2
      simp only [PropertyMap.set, h, if_false]
      simp only [PropertyMap.keys, List.map_cons, List.nodup_cons]
      exact ⟨hk, this⟩

theorem storeLeaves_get? :
    ∀ (cs : List Leaf) (m : PropertyMap) (key : String),
      PropertyMap.get? (storeLeaves m cs) key =
        match lastText cs key with
        | some v => some v
        | none => PropertyMap.get? m key
  | [], m, key => by simp [storeLeaves, lastText]
  | c :: cs, m, key => by
    have ih := storeLeaves_get? cs (PropertyMap.set m c.start.Name.Local c.text) key
    simp only [storeLeaves, lastText, ih]
    cases hl : lastText cs key with
    | some v => simp
    | none =>
      by_cases h : c.start.Name.Local = key
      · subst h
        simp [PropertyMap.get?_set_self]
      · simp [h, PropertyMap.get?_set_ne _ _ _ _ h]

theorem storeLeaves_mem_keys :
    ∀ (cs : List Leaf) (m : PropertyMap) (key : String),
      key ∈ PropertyMap.keys (storeLeaves m cs) ↔
        key ∈ PropertyMap.keys m ∨ ∃ c ∈ cs, c.start.Name.Local = key
  | [], m, key => by simp [storeLeaves]
  | c :: cs, m, key => by
    have ih := storeLeaves_mem_keys cs (PropertyMap.set m c.start.Name.Local c.text) key
    simp only [storeLeaves, ih, PropertyMap.mem_keys_set, List.mem_cons, exists_eq_or_imp]
    constructor
    · rintro ((h | h) | h)
      · exact Or.inr (Or.inl h.symm)
      · exact Or.inl h
      · exact Or.inr (Or.inr h)
    · rintro (h | h | h)
      · exact Or.inl (Or.inr h)
      · exact Or.inl (Or.inl h.symm)
      · exact Or.inr h

theorem storeLeaves_nodup :
    ∀ (cs : List Leaf) (m : PropertyMap), (PropertyMap.keys m).Nodup →
      (PropertyMap.keys (storeLeaves m cs)).Nodup
  | [], _, hm => by simpa [storeLeaves] using hm
  | c :: cs, m, hm => by
    simp only [storeLeaves]
    exact storeLeaves_nodup cs _ (PropertyMap.nodup_keys_set m _ _ hm)

theorem unmarshal_leaves (p : Properties) (w : StartElement) (cs : List Leaf)
    (outer : List Stack) (rest : List Token) (fuel : Nat) :
    UnmarshalXML (cs.length + (fuel + 2)) p
        (Decoder.pushEOF
          { input := leafTokens cs ++ Token.EndElement w.Name :: rest,
            stk := Stack.stkStart w.Name :: outer, err := none }) w =
      some { err := none, p := some (storeLeaves [] cs),
             d := { input := rest, stk := Stack.stkEOF :: outer, err := none } } ∧
    UnmarshalXML (cs.length + (fuel + 2)) p
        { input := leafTokens cs ++ [Token.EndElement w.Name],
          stk := [Stack.stkStart w.Name], err := none } w =
      some { err := none, p := some (storeLeaves [] cs),
             d := { input := [], stk := [], err := some Error.EOF } } := by
  refine ⟨?_, ?_⟩
  · simp only [UnmarshalXML, Decoder.pushEOF, pushEOFStack]
    rw [loop_leaves w _ _ (by simp) cs [] (fuel + 2)]
    exact loop_close_marked w w.Name outer rest _ fuel
  · simp only [UnmarshalXML]
    rw [loop_leaves w _ _ (by simp) cs [] (fuel + 2)]
    exact loop_close_last w w.Name _ fuel

/-! ### C1: last write wins -/

theorem Token_junk (j : Junk) (rest : List Token) (S : List Stack)
    (h : S.head? ≠ some Stack.stkEOF) :
    Decoder.Token { input := j.token :: rest, stk := S, err := none } =
      (some j.token, none, { input := rest, stk := S, err := none }) := by
  cases j <;> simp [Junk.token, Decoder.Token, Decoder.rawToken, h]

theorem loop_junks (start : StartElement) (S : List Stack) (tail : List Token)
    (hS : S.head? ≠ some Stack.stkEOF) (m : PropertyMap) :
    ∀ (js : List Junk) (fuel : Nat),
      UnmarshalXML.loop start (js.length + fuel)
          { input := js.map Junk.token ++ tail, stk := S, err := none } m =
        UnmarshalXML.loop start fuel { input := tail, stk := S, err := none } m
  | [], fuel => by simp
  | j :: js, fuel => by
    have h : (j :: js).length + fuel = (js.length + fuel) + 1 := by simp; omega
    rw [h, List.map_cons, List.cons_append, UnmarshalXML.loop, Token_junk j _ S hS]
    have ih := loop_junks start S tail hS m js fuel
    cases j <;> simpa [Junk.token] using ih

theorem loop_items (start : StartElement) (S : List Stack) (tail : List Token)
    (hS : S.head? ≠ some Stack.stkEOF) :
    ∀ (items : List (List Junk × Leaf)) (m : PropertyMap) (fuel : Nat),
      UnmarshalXML.loop start (itemRounds items + fuel)
          { input := itemTokens items ++ tail, stk := S, err := none } m =
        UnmarshalXML.loop start fuel { input := tail, stk := S, err := none }
          (storeLeaves m (items.map Prod.snd))
  | [], m, fuel => by simp [itemRounds, itemTokens, storeLeaves]
  | (js, c) :: items, m, fuel => by
    have ih := loop_items start S tail hS items
      (PropertyMap.set m c.start.Name.Local c.text) fuel
    have h1 := loop_junks start S (c.tokens ++ (itemTokens items ++ tail)) hS m js
      (1 + itemRounds items + fuel)
    have h2 := loop_leaves start S (itemTokens items ++ tail) hS [c] m (itemRounds items + fuel)
    simp only [leafTokens, List.append_nil, List.length_singleton, storeLeaves] at h2
    simp only [itemRounds, itemTokens, List.append_assoc, List.map_cons, storeLeaves]
    have h3 : js.length + (1 + itemRounds items) + fuel
        = js.length + (1 + itemRounds items + fuel) := by omega
    have h4 : 1 + itemRounds items + fuel = 1 + (itemRounds items + fuel) := by omega
    rw [h3, h1, h4, h2, ih]

theorem unmarshal_items (p : Properties) (w : StartElement)
    (items : List (List Junk × Leaf)) (trail : List Junk)
    (outer : List Stack) (rest : List Token) (fuel : Nat) :
    UnmarshalXML (itemRounds items + (trail.length + (fuel + 2))) p
        (Decoder.pushEOF
          { input := itemTokens items ++ (trail.map Junk.token ++ Token.EndElement w.Name :: rest),
            stk := Stack.stkStart w.Name :: outer, err := none }) w =
      some { err := none, p := some (storeLeaves [] (items.map Prod.snd)),
             d := { input := rest, stk := Stack.stkEOF :: outer, err := none } } ∧
    UnmarshalXML (itemRounds items + (trail.length + (fuel + 2))) p
        { input := itemTokens items ++ (trail.map Junk.token ++ [Token.EndElement w.Name]),
          stk := [Stack.stkStart w.Name], err := none } w =
      some { err := none, p := some (storeLeaves [] (items.map Prod.snd)),
             d := { input := [], stk := [], err := some Error.EOF } } := by
  refine ⟨?_, ?_⟩
  · simp only [UnmarshalXML, Decoder.pushEOF, pushEOFStack]
    rw [loop_items w _ _ (by simp) items [] _, loop_junks w _ _ (by simp) _ trail _]
    exact loop_close_marked w w.Name outer rest _ fuel
  · simp only [UnmarshalXML]
    rw [loop_items w _ _ (by simp) items [] _, loop_junks w _ _ (by simp) _ trail _]
    exact loop_close_last w w.Name _ fuel

/-- C1: for every wrapper whose children are text-only leaf elements (with any
character data, comments, processing instructions or directives between them),
both when the decoder carries the end mark that `encoding/xml` sets before it
calls `UnmarshalXML` (whatever follows the wrapper) and when the stream ends
with the wrapper, `UnmarshalXML` returns nil once the fuel covers the rounds
of the loop, and the map it leaves holds one entry per distinct child local
name, bound to the text of the last child of that name. -/
theorem C1_last_write_wins (p : Properties) (w : StartElement)
    (items : List (List Junk × Leaf)) (trail : List Junk)
    (outer : List Stack) (rest : List Token) (fuel : Nat) :
    UnmarshalXML (itemRounds items + (trail.length + (fuel + 2))) p
        (Decoder.pushEOF
          { input := itemTokens items ++ (trail.map Junk.token ++ Token.EndElement w.Name :: rest),
            stk := Stack.stkStart w.Name :: outer, err := none }) w =
      some { err := none, p := some (storeLeaves [] (items.map Prod.snd)),
             d := { input := rest, stk := Stack.stkEOF :: outer, err := none } } ∧
    UnmarshalXML (itemRounds items + (trail.length + (fuel + 2))) p
        { input := itemTokens items ++ (trail.map Junk.token ++ [Token.EndElement w.Name]),
          stk := [Stack.stkStart w.Name], err := none } w =
      some { err := none, p := some (storeLeaves [] (items.map Prod.snd)),
             d := { input := [], stk := [], err := some Error.EOF } } ∧
    (∀ key, PropertyMap.get? (storeLeaves [] (items.map Prod.snd)) key =
      lastText (items.map Prod.snd) key) ∧
    (PropertyMap.keys (storeLeaves [] (items.map Prod.snd))).Nodup ∧
    (∀ key, key ∈ PropertyMap.keys (storeLeaves [] (items.map Prod.snd)) ↔
      ∃ c ∈ items.map Prod.snd, c.start.Name.Local = key) := by
  refine ⟨(unmarshal_items p w items trail outer rest fuel).1,
    (unmarshal_items p w items trail outer rest fuel).2, ?_, ?_, ?_⟩
  · intro key
    rw [storeLeaves_get?]
    cases lastText (items.map Prod.snd) key <;> simp [PropertyMap.get?]
  · exact storeLeaves_nodup _ [] (by simp [PropertyMap.keys])
  · intro key
    rw [storeLeaves_mem_keys]
    simp [PropertyMap.keys]

/-- The example of the specification: `foo` = `1` then `foo` = `2` decode to the
one-entry map with `foo` bound to `2`. -/
theorem last_write_wins_foo :
    UnmarshalXML 4 none
        (Decoder.pushEOF
          { input := [Token.StartElement ⟨⟨"", "foo"⟩, []⟩, Token.CharData "1",
                      Token.EndElement ⟨"", "foo"⟩,
                      Token.StartElement ⟨⟨"", "foo"⟩, []⟩, Token.CharData "2",
                      Token.EndElement ⟨"", "foo"⟩,
                      Token.EndElement ⟨"", "properties"⟩],
            stk := [Stack.stkStart ⟨"", "properties"⟩, Stack.stkStart ⟨"", "project"⟩],
            err := none }) ⟨⟨"", "properties"⟩, []⟩ =
      some { err := none, p := some [("foo", "2")],
             d := { input := [],
                    stk := [Stack.stkEOF, Stack.stkStart ⟨"", "project"⟩], err := none } } := by
  decide

/-! ### The encoder: C2 and C7 -/

theorem tokens_foldl (iter : List (String × String)) :
    ∀ (acc : List Token),
      iter.foldl (fun tokens kv =>
        tokens ++ [Token.StartElement { Name := { Space := "", Local := kv.1 }, Attr := [] },
          Token.CharData kv.2, Token.EndElement { Space := "", Local := kv.1 }]) acc =
      acc ++ iter.flatMap entryTokens := by
  induction iter with
  | nil => intro acc; simp
  | cons kv iter ih =>
    intro acc
    simp only [List.foldl_cons, ih, List.flatMap_cons, entryTokens, List.append_assoc]

theorem tokens_eq (start : StartElement) (iter : List (String × String)) :
    MarshalXML.tokens start iter =
      Token.StartElement start :: (iter.flatMap entryTokens ++ [Token.EndElement start.Name]) := by
  simp only [MarshalXML.tokens]
  have h := tokens_foldl iter [Token.StartElement start]
  simp only at h
  rw [h]
  simp

theorem encodeAll_callAll (ts : List Token) :
    ∀ (e : Encoder), MarshalXML.encodeAll ts e = Encoder.callAll (ts.map Call.EncodeToken) e := by
  induction ts with
  | nil => intro e; rfl
  | cons t ts ih =>
    intro e
    simp only [MarshalXML.encodeAll, List.map_cons, Encoder.callAll, Encoder.call]
    cases h : (e.EncodeToken t).1 with
    | none =>
      have : e.EncodeToken t = (none, (e.EncodeToken t).2) := by rw [← h]
      rw [this]
      exact ih _
    | some err =>
      have : e.EncodeToken t = (some err, (e.EncodeToken t).2) := by rw [← h]
      rw [this]

theorem callAll_append (cs : List Call) (c : Call) :
    ∀ (e : Encoder), Encoder.callAll (cs ++ [c]) e =
      match Encoder.callAll cs e with
      | (some err, e1) => (some err, e1)
      | (none, e1) => e1.call c := by
  induction cs with
  | nil =>
    intro e
    simp only [List.nil_append, Encoder.callAll]
    rcases h : e.call c with ⟨_ | err, e1⟩ <;> simp
  | cons x cs ih =>
    intro e
    simp only [List.cons_append, Encoder.callAll]
    rcases h : e.call x with ⟨_ | err, e1⟩
    · exact ih e1
    · simp

theorem MarshalXML_callAll (iter : List (String × String)) (e : Encoder) (start : StartElement) :
    MarshalXML iter e start = Encoder.callAll (marshalCalls start iter) e := by
  simp only [MarshalXML, marshalCalls, callAll_append, encodeAll_callAll, Encoder.call]

theorem call_log (e : Encoder) (c : Call) :
    e.call c = (e.answer e.log c, { e with log := e.log ++ [c] }) := by
  cases c <;> rfl

theorem callAll_ok (cs : List Call) :
    ∀ (e : Encoder),
      (∀ pre c post, cs = pre ++ c :: post → e.answer (e.log ++ pre) c = none) →
      Encoder.callAll cs e = (none, { e with log := e.log ++ cs }) := by
  induction cs with
  | nil => intro e _; simp [Encoder.callAll]
  | cons x cs ih =>
    intro e h
    have hx : e.answer e.log x = none := by simpa using h [] x cs rfl
    simp only [Encoder.callAll, call_log, hx]
    rw [ih]
    · simp
    · intro pre c post hc
      have := h (x :: pre) c post (by simp [hc])
      simpa using this

theorem callAll_fail (pre : List Call) (c : Call) (post : List Call) (err : Error) :
    ∀ (e : Encoder),
      (∀ pre1 c1 post1, pre = pre1 ++ c1 :: post1 → e.answer (e.log ++ pre1) c1 = none) →
      e.answer (e.log ++ pre) c = some err →
      Encoder.callAll (pre ++ c :: post) e = (some err, { e with log := e.log ++ pre ++ [c] }) := by
  induction pre with
  | nil =>
    intro e _ hc
    have hc2 : e.answer e.log c = some err := by simpa using hc
    simp [Encoder.callAll, call_log, hc2]
  | cons x pre ih =>
    intro e h hc
    have hx : e.answer e.log x = none := by simpa using h [] x pre rfl
    simp only [List.cons_append, Encoder.callAll, call_log, hx]
    have h2 := ih { e with log := e.log ++ [x] }
      (by
        intro pre1 c1 post1 hp
        have := h (x :: pre1) c1 post1 (by simp [hp])
        simpa using this)
      (by simpa using hc)
    simpa using h2

theorem get?_of_mem (m : PropertyMap) (hm : (PropertyMap.keys m).Nodup) (k v : String)
    (h : (k, v) ∈ m) : PropertyMap.get? m k = some v := by
  induction m with
  | nil => simp at h
  | cons e m ih =>
    obtain ⟨k1, v1⟩ := e
    have hm2 : k1 ∉ PropertyMap.keys m ∧ (PropertyMap.keys m).Nodup := by
      simpa [PropertyMap.keys] using hm
    rcases List.mem_cons.mp h with h1 | h1
    · cases h1
      simp [PropertyMap.get?]
    · have hne : k1 ≠ k := by
        intro hc
        subst hc
        exact hm2.1 (List.mem_map.mpr ⟨(k1, v), h1, rfl⟩)
      simp [PropertyMap.get?, hne, ih hm2.2 h1]

theorem mem_of_get? (m : PropertyMap) (k v : String)
    (h : PropertyMap.get? m k = some v) : (k, v) ∈ m := by
  induction m with
  | nil => simp [PropertyMap.get?] at h
  | cons e m ih =>
    obtain ⟨k1, v1⟩ := e
    by_cases hk : k1 = k
    · subst hk
      simp [PropertyMap.get?] at h
      simp [h]
    · simp [PropertyMap.get?, hk] at h
      exact List.mem_cons_of_mem _ (ih h)

theorem filter_key (m : PropertyMap) (hm : (PropertyMap.keys m).Nodup) (k v : String)
    (h : PropertyMap.get? m k = some v) :
    m.filter (fun kv => kv.1 = k) = [(k, v)] := by
  induction m with
  | nil => simp [PropertyMap.get?] at h
  | cons e m ih =>
    obtain ⟨k1, v1⟩ := e
    have hm2 : k1 ∉ PropertyMap.keys m ∧ (PropertyMap.keys m).Nodup := by
      simpa [PropertyMap.keys] using hm
    by_cases hk : k1 = k
    · subst hk
      simp [PropertyMap.get?] at h
      subst h
      have : m.filter (fun kv => kv.1 = k1) = [] := by
        rw [List.filter_eq_nil_iff]
        intro kv hkv hc
        have hc2 : kv.1 = k1 := by simpa using hc
        exact hm2.1 (List.mem_map.mpr ⟨kv, hkv, hc2⟩)
      simp [List.filter_cons, this]
    · simp [PropertyMap.get?, hk] at h
      simp [List.filter_cons, hk, ih hm2.2 h]

theorem marshalCalls_eq (start : StartElement) (iter : List (String × String)) :
    marshalCalls start iter =
      (Token.StartElement start ::
        (iter.flatMap entryTokens ++ [Token.EndElement start.Name])).map Call.EncodeToken
        ++ [Call.Flush] := by
  simp only [marshalCalls, tokens_eq]

theorem length_flatMap_entryTokens (iter : List (String × String)) :
    (iter.flatMap entryTokens).length = 3 * iter.length := by
  induction iter with
  | nil => simp
  | cons kv iter ih => simp [List.flatMap_cons, entryTokens, ih]; omega

/-- C2: for every map `s` (keys pairwise distinct), every order `iter` in which
`range s` visits its entries, and every wrapper start token, when the encoder
answers none of the calls with an error, `MarshalXML` returns nil and has
handed to `EncodeToken` exactly: the start token, then for each visited entry
the start element named by the key (no attributes), the character data of the
value and the end element of the key, then the end element of the wrapper;
after these `3 * |s| + 2` tokens it has called `Flush`; each key of `s` is
visited once, with its value, and nothing else is visited. -/
theorem C2_encode_fidelity (s : Properties) (iter : List (String × String))
    (e : Encoder) (start : StartElement)
    (hs : (PropertyMap.keys (s.getD [])).Nodup)
    (hiter : Properties.RangeOrder s iter)
    (hok : ∀ pre c post, marshalCalls start iter = pre ++ c :: post →
      e.answer (e.log ++ pre) c = none) :
    MarshalXML iter e start =
      (none, { e with log := e.log ++
        ((Token.StartElement start ::
          (iter.flatMap entryTokens ++ [Token.EndElement start.Name])).map Call.EncodeToken
          ++ [Call.Flush]) }) ∧
    (Token.StartElement start ::
      (iter.flatMap entryTokens ++ [Token.EndElement start.Name])).length
        = 3 * (s.getD []).length + 2 ∧
    (∀ key value, PropertyMap.get? (s.getD []) key = some value →
      iter.filter (fun kv => kv.1 = key) = [(key, value)]) ∧
    (∀ kv ∈ iter, PropertyMap.get? (s.getD []) kv.1 = some kv.2) := by
  have hperm : iter.Perm (s.getD []) := hiter
  refine ⟨?_, ?_, ?_, ?_⟩
  · rw [MarshalXML_callAll, callAll_ok _ e hok, marshalCalls_eq]
  · simp only [List.length_cons, List.length_append, length_flatMap_entryTokens,
      hperm.length_eq, List.length_nil]
  · intro key value hget
    have h1 := filter_key (s.getD []) hs key value hget
    have h2 : (iter.filter (fun kv => decide (kv.1 = key))).Perm
        ((s.getD []).filter (fun kv => decide (kv.1 = key))) := hperm.filter _
    rw [h1] at h2
    exact List.perm_singleton.mp h2
  · intro kv hkv
    exact get?_of_mem (s.getD []) hs kv.1 kv.2 (hperm.subset hkv)

theorem C2_encode_fidelity_witness :
    MarshalXML [("skipTests", "true"), ("java.version", "11")] okEncoder
        ⟨⟨"", "properties"⟩, []⟩ =
      (none, { okEncoder with log := okEncoder.log ++
        ((Token.StartElement ⟨⟨"", "properties"⟩, []⟩ ::
          (List.flatMap [("skipTests", "true"), ("java.version", "11")] entryTokens ++
            [Token.EndElement (StartElement.Name ⟨⟨"", "properties"⟩, []⟩)])).map
              Call.EncodeToken ++ [Call.Flush]) }) ∧
    (Token.StartElement ⟨⟨"", "properties"⟩, []⟩ ::
      (List.flatMap [("skipTests", "true"), ("java.version", "11")] entryTokens ++
        [Token.EndElement (StartElement.Name ⟨⟨"", "properties"⟩, []⟩)])).length
        = 3 * (Option.getD (some [("java.version", "11"), ("skipTests", "true")]) []).length + 2 ∧
    (∀ key value,
      PropertyMap.get? (Option.getD (some [("java.version", "11"), ("skipTests", "true")]) [])
        key = some value →
      List.filter (fun kv => kv.1 = key) [("skipTests", "true"), ("java.version", "11")]
        = [(key, value)]) ∧
    (∀ kv ∈ [("skipTests", "true"), ("java.version", "11")],
      PropertyMap.get? (Option.getD (some [("java.version", "11"), ("skipTests", "true")]) [])
        kv.1 = some kv.2) :=
  C2_encode_fidelity (some [("java.version", "11"), ("skipTests", "true")])
    [("skipTests", "true"), ("java.version", "11")] okEncoder ⟨⟨"", "properties"⟩, []⟩
    (by decide) (by unfold Properties.RangeOrder; decide) (fun _ _ _ _ => rfl)

theorem callAll_spec (cs : List Call) :
    ∀ (e : Encoder),
      ((Encoder.callAll cs e).1 = none ∧
        (∀ pre c post, cs = pre ++ c :: post → e.answer (e.log ++ pre) c = none)) ∨
      (∃ pre c post err, cs = pre ++ c :: post ∧
        (∀ pre1 c1 post1, pre = pre1 ++ c1 :: post1 → e.answer (e.log ++ pre1) c1 = none) ∧
        e.answer (e.log ++ pre) c = some err) := by
  induction cs with
  | nil =>
    intro e
    left
    refine ⟨rfl, ?_⟩
    intro pre c post h
    simp at h
  | cons x cs ih =>
    intro e
    cases hx : e.answer e.log x with
    | some err =>
      right
      exact ⟨[], x, cs, err, rfl, by intro pre1 c1 post1 h; simp at h, by simpa using hx⟩
    | none =>
      rcases ih { e with log := e.log ++ [x] } with ⟨h1, h2⟩ | ⟨pre, c, post, err, h1, h2, h3⟩
      · left
        refine ⟨?_, ?_⟩
        · simpa [Encoder.callAll, call_log, hx] using h1
        · intro pre c post h
          cases pre with
          | nil =>
            simp at h
            rw [← h.1]
            simpa using hx
          | cons y pre =>
            simp at h
            have := h2 pre c post h.2
            rw [← h.1]
            simpa using this
      · right
        refine ⟨x :: pre, c, post, err, by simp [h1], ?_, by simpa using h3⟩
        intro pre1 c1 post1 h
        cases pre1 with
        | nil =>
          simp at h
          rw [← h.1]
          simpa using hx
        | cons y pre1 =>
          simp at h
          have := h2 pre1 c1 post1 h.2
          rw [← h.1]
          simpa using this

/-- C7: `MarshalXML` returns nil when the encoder answers none of the calls it has
to make (the `EncodeToken` of each token, then `Flush`) with an error, whatever
the keys and values are; when a call is the first to be answered with an
error, `MarshalXML` returns that very error and that call is the last it makes;
and it returns an error only in that case. -/
theorem C7_encode_fails_iff_writer_fails (iter : List (String × String)) (e : Encoder)
    (start : StartElement) :
    ((∀ pre c post, marshalCalls start iter = pre ++ c :: post →
        e.answer (e.log ++ pre) c = none) →
      MarshalXML iter e start = (none, { e with log := e.log ++ marshalCalls start iter })) ∧
    (∀ pre c post err, marshalCalls start iter = pre ++ c :: post →
      (∀ pre1 c1 post1, pre = pre1 ++ c1 :: post1 → e.answer (e.log ++ pre1) c1 = none) →
      e.answer (e.log ++ pre) c = some err →
      MarshalXML iter e start = (some err, { e with log := e.log ++ pre ++ [c] })) ∧
    (∀ err, (MarshalXML iter e start).1 = some err ↔
      ∃ pre c post, marshalCalls start iter = pre ++ c :: post ∧
        (∀ pre1 c1 post1, pre = pre1 ++ c1 :: post1 → e.answer (e.log ++ pre1) c1 = none) ∧
        e.answer (e.log ++ pre) c = some err) := by
  refine ⟨?_, ?_, ?_⟩
  · intro hok
    rw [MarshalXML_callAll, callAll_ok _ e hok]
  · intro pre c post err hsplit hpre hc
    rw [MarshalXML_callAll, hsplit, callAll_fail pre c post err e hpre hc]
  · intro err
    constructor
    · intro h
      rw [MarshalXML_callAll] at h
      rcases callAll_spec (marshalCalls start iter) e with ⟨h1, _⟩ | ⟨pre, c, post, err1, h1, h2, h3⟩
      · rw [h1] at h
        cases h
      · rw [h1, callAll_fail pre c post err1 e h2 h3] at h
        simp at h
        subst h
        exact ⟨pre, c, post, h1, h2, h3⟩
    · rintro ⟨pre, c, post, h1, h2, h3⟩
      rw [MarshalXML_callAll, h1, callAll_fail pre c post err e h2 h3]

theorem C7_encode_fails_iff_writer_fails_witness :
    MarshalXML [("a", "1")] refusingEncoder ⟨⟨"", "properties"⟩, []⟩ =
      (some (Error.Other "short write"),
        { refusingEncoder with log := refusingEncoder.log ++
            [Call.EncodeToken (Token.StartElement ⟨⟨"", "properties"⟩, []⟩),
             Call.EncodeToken (Token.StartElement ⟨⟨"", "a"⟩, []⟩)] ++
            [Call.EncodeToken (Token.CharData "1")] }) :=
  (C7_encode_fails_iff_writer_fails [("a", "1")] refusingEncoder ⟨⟨"", "properties"⟩, []⟩).2.1
    [Call.EncodeToken (Token.StartElement ⟨⟨"", "properties"⟩, []⟩),
     Call.EncodeToken (Token.StartElement ⟨⟨"", "a"⟩, []⟩)]
    (Call.EncodeToken (Token.CharData "1"))
    [Call.EncodeToken (Token.EndElement ⟨"", "a"⟩),
     Call.EncodeToken (Token.EndElement ⟨"", "properties"⟩), Call.Flush]
    (Error.Other "short write") (by decide)
    (by
      intro pre1 c1 post1 h
      have hmem : c1 ∈ [Call.EncodeToken (Token.StartElement ⟨⟨"", "properties"⟩, []⟩),
          Call.EncodeToken (Token.StartElement ⟨⟨"", "a"⟩, []⟩)] := by
        rw [h]; simp
      simp only [List.mem_cons, List.mem_singleton, List.not_mem_nil, or_false] at hmem
      rcases hmem with hmem | hmem <;> subst hmem <;> simp [refusingEncoder])
    (by simp [refusingEncoder])

/-! ### C3: round trip -/

theorem leafTokens_entries (iter : List (String × String)) :
    leafTokens (iter.map entryLeaf) = iter.flatMap entryTokens := by
  induction iter with
  | nil => rfl
  | cons kv iter ih =>
    simp [leafTokens, Leaf.tokens, entryLeaf, entryTokens, List.flatMap_cons, ih]

theorem PropertyMap.set_new (m : PropertyMap) (key value : String)
    (h : key ∉ PropertyMap.keys m) : PropertyMap.set m key value = m ++ [(key, value)] := by
  induction m with
  | nil => rfl
  | cons e m ih =>
    obtain ⟨k, v⟩ := e
    have h2 : ¬ key = k ∧ key ∉ PropertyMap.keys m := by
      simpa [PropertyMap.keys] using h
    have hne : ¬ k = key := fun hc => h2.1 hc.symm
    simp [PropertyMap.set, hne, ih h2.2]

theorem entryLeaf_text (kv : String × String) : (entryLeaf kv).text = kv.2 := by
  simp [entryLeaf, Leaf.text]

theorem storeLeaves_entries (iter : List (String × String)) :
    ∀ (m : PropertyMap), (PropertyMap.keys (m ++ iter)).Nodup →
      storeLeaves m (iter.map entryLeaf) = m ++ iter := by
  induction iter with
  | nil => intro m _; simp [storeLeaves]
  | cons kv iter ih =>
    intro m h
    have hk : kv.1 ∉ PropertyMap.keys m := by
      intro hc
      simp only [PropertyMap.keys, List.map_append, List.map_cons] at h hc
      have := (List.nodup_append.mp h).2.2
      exact this hc (List.mem_cons_self _ _)
    simp only [List.map_cons, storeLeaves, entryLeaf_text]
    have hl : (entryLeaf kv).start.Name.Local = kv.1 := rfl
    rw [hl, PropertyMap.set_new m kv.1 kv.2 hk, ih]
    · simp
    · simpa using h

/-- C3: for every map `s` (keys pairwise distinct; the nil map too) and every
order `iter` in which `range s` visits it, the tokens that `MarshalXML` builds
decode back: once the wrapper's start token is read, `UnmarshalXML` returns
nil with a map that holds the entries of `s` and no other (each key bound to
the same value), both under the end mark of `encoding/xml` with anything
following and for a stream that ends with the wrapper. -/
theorem C3_round_trip (s p : Properties) (iter : List (String × String))
    (start : StartElement) (outer : List Stack) (rest : List Token) (fuel : Nat)
    (hs : (PropertyMap.keys (s.getD [])).Nodup)
    (hiter : Properties.RangeOrder s iter)
    (houter : outer.head? ≠ some Stack.stkEOF) :
    UnmarshalXML (iter.length + (fuel + 2)) p
        (Decoder.pushEOF (Decoder.Token
          { input := MarshalXML.tokens start iter ++ rest, stk := outer, err := none }).2.2)
        start =
      some { err := none, p := some iter,
             d := { input := rest, stk := Stack.stkEOF :: outer, err := none } } ∧
    UnmarshalXML (iter.length + (fuel + 2)) p
        (Decoder.Token { input := MarshalXML.tokens start iter, stk := [], err := none }).2.2
        start =
      some { err := none, p := some iter,
             d := { input := [], stk := [], err := some Error.EOF } } ∧
    iter.Perm (s.getD []) ∧
    (∀ key, PropertyMap.get? iter key = PropertyMap.get? (s.getD []) key) := by
  have hperm : iter.Perm (s.getD []) := hiter
  have hnd : (PropertyMap.keys iter).Nodup := by
    have : (PropertyMap.keys iter).Perm (PropertyMap.keys (s.getD [])) := hperm.map _
    exact this.nodup_iff.mpr hs
  have hstore : storeLeaves [] (iter.map entryLeaf) = iter := by
    have := storeLeaves_entries iter [] (by simpa using hnd)
    simpa using this
  have hlen : (iter.map entryLeaf).length = iter.length := by simp
  have h1 := unmarshal_leaves p start (iter.map entryLeaf) outer rest fuel
  refine ⟨?_, ?_, hperm, ?_⟩
  · rw [tokens_eq, List.cons_append, Token_start _ _ _ houter, ← leafTokens_entries]
    simp only [List.append_assoc, List.singleton_append]
    rw [← hlen, h1.1, hstore]
  · rw [tokens_eq, Token_start _ _ _ (by simp), ← leafTokens_entries]
    rw [← hlen, h1.2, hstore]
  · intro key
    cases hg : PropertyMap.get? (s.getD []) key with
    | some v =>
      exact get?_of_mem iter hnd key v (hperm.symm.subset (mem_of_get? _ _ _ hg))
    | none =>
      cases hi : PropertyMap.get? iter key with
      | none => rfl
      | some v =>
        have := get?_of_mem (s.getD []) hs key v (hperm.subset (mem_of_get? _ _ _ hi))
        rw [hg] at this
        cases this

theorem C3_round_trip_witness :
    UnmarshalXML ([("b", "2"), ("a", "1")].length + (0 + 2)) none
        (Decoder.pushEOF (Decoder.Token
          { input := MarshalXML.tokens ⟨⟨"", "properties"⟩, []⟩ [("b", "2"), ("a", "1")] ++ [],
            stk := [Stack.stkStart ⟨"", "project"⟩], err := none }).2.2)
        ⟨⟨"", "properties"⟩, []⟩ =
      some { err := none, p := some [("b", "2"), ("a", "1")],
             d := { input := [], stk := Stack.stkEOF :: [Stack.stkStart ⟨"", "project"⟩],
                    err := none } } :=
  (C3_round_trip (some [("a", "1"), ("b", "2")]) none [("b", "2"), ("a", "1")]
    ⟨⟨"", "properties"⟩, []⟩ [Stack.stkStart ⟨"", "project"⟩] [] 0
    (by decide) (List.Perm.swap _ _ _) (by decide)).1

/-! ### Fuel of the loop; C4: truncated streams -/

theorem loop_succ (start : StartElement) :
    ∀ (n : Nat) (d : Decoder) (m : PropertyMap) (r : Decoded),
      UnmarshalXML.loop start n d m = some r → UnmarshalXML.loop start (n + 1) d m = some r := by
  intro n
  induction n with
  | zero => intro d m r h; simp [UnmarshalXML.loop] at h
  | succ n ih =>
    intro d m r h
    rw [UnmarshalXML.loop] at h ⊢
    rcases hT : d.Token with ⟨token, err, d1⟩
    rw [hT] at h
    simp only at h ⊢
    by_cases he : err = some Error.EOF
    · simpa [he] using h
    · simp only [he, if_false] at h ⊢
      cases token with
      | none => exact ih _ _ _ h
      | some t =>
        cases t with
        | StartElement s =>
          simp only at h ⊢
          rcases hD : d1.DecodeElement start with _ | ⟨value, _ | e, d2⟩
          · rw [hD] at h; simp at h
          · rw [hD] at h; simp only at h ⊢; exact ih _ _ _ h
          · rw [hD] at h; simpa using h
        | EndElement name => exact ih _ _ _ h
        | CharData s => exact ih _ _ _ h
        | Comment s => exact ih _ _ _ h
        | ProcInst a b => exact ih _ _ _ h
        | Directive s => exact ih _ _ _ h

theorem loop_mono (start : StartElement) (n : Nat) (d : Decoder) (m : PropertyMap) (r : Decoded)
    (h : UnmarshalXML.loop start n d m = some r) :
    ∀ k, UnmarshalXML.loop start (n + k) d m = some r := by
  intro k
  induction k with
  | zero => exact h
  | succ k ih => exact loop_succ start (n + k) d m r ih

/-- A decoder on which `Token` reports an error other than `io.EOF` and stays as it
is: the loop never leaves. -/
theorem loop_diverges (start : StartElement) (d : Decoder) (e : Error)
    (he : e ≠ Error.EOF) (hT : d.Token = (none, some e, d)) :
    ∀ (n : Nat) (m : PropertyMap), UnmarshalXML.loop start n d m = none := by
  intro n
  induction n with
  | zero => intro m; rfl
  | succ n ih =>
    intro m
    rw [UnmarshalXML.loop, hT]
    simp [he, ih]

theorem Token_truncated (n : Name) (S : List Stack) (e : Option Error)
    (he : e = none ∨ e = some Error.EOF) :
    Decoder.Token { input := [], stk := Stack.stkStart n :: S, err := e } =
      (none, some (Error.XMLSyntaxError "unexpected EOF"),
        { input := [], stk := Stack.stkStart n :: S, err := some Error.EOF }) := by
  rcases he with he | he <;> subst he <;> simp [Decoder.Token, Decoder.rawToken]

theorem loop_truncated (start : StartElement) (n : Name) (S : List Stack) :
    ∀ (fuel : Nat) (m : PropertyMap),
      UnmarshalXML.loop start fuel { input := [], stk := Stack.stkStart n :: S, err := none } m
        = none := by
  intro fuel m
  cases fuel with
  | zero => rfl
  | succ fuel =>
    rw [UnmarshalXML.loop, Token_truncated n S none (Or.inl rfl)]
    simp only [reduceCtorEq, if_false]
    exact loop_diverges start _ (Error.XMLSyntaxError "unexpected EOF") (by simp)
      (Token_truncated n S _ (Or.inr rfl)) fuel m

theorem loop_leaves_truncated (start : StartElement) (n : Name) (S : List Stack)
    (cs : List Leaf) (fuel : Nat) (m : PropertyMap) :
    UnmarshalXML.loop start fuel
      { input := leafTokens cs, stk := Stack.stkStart n :: S, err := none } m = none := by
  cases h : UnmarshalXML.loop start fuel
      { input := leafTokens cs, stk := Stack.stkStart n :: S, err := none } m with
  | none => rfl
  | some r =>
    have h1 := loop_mono start fuel _ m r h cs.length
    have h2 := loop_leaves start (Stack.stkStart n :: S) [] (by simp) cs m fuel
    rw [List.append_nil, Nat.add_comm, h1, loop_truncated] at h2
    cases h2

/-- C4 (the code at the failing input): a stream that opens the wrapper, holds
complete leaf children and ends there is never decoded to the end. `Token`
reports the end of the input inside the open wrapper as the syntax error
`unexpected EOF`, not as `io.EOF`, on every call; line 123 only leaves the
loop on `io.EOF`, so whatever the fuel the call has not returned. This holds
under the end mark of `encoding/xml` and without it. -/
theorem C4_truncated_stream_never_returns (p : Properties) (w : StartElement)
    (cs : List Leaf) (outer : List Stack) (fuel : Nat) :
    UnmarshalXML fuel p
        (Decoder.pushEOF
          { input := leafTokens cs, stk := Stack.stkStart w.Name :: outer, err := none }) w
      = none ∧
    UnmarshalXML fuel p
        { input := leafTokens cs, stk := [Stack.stkStart w.Name], err := none } w = none := by
  refine ⟨?_, ?_⟩
  · simp only [UnmarshalXML, Decoder.pushEOF, pushEOFStack]
    exact loop_leaves_truncated w w.Name _ cs fuel []
  · exact loop_leaves_truncated w w.Name _ cs fuel []

/-! ### The loops of `Skip` and `DecodeElement` return; simulations -/

theorem Token_error_no_token (d : Decoder) (e : Error)
    (h : (Decoder.Token d).2.1 = some e) : (Decoder.Token d).1 = none := by
  rcases d with ⟨input, stk, err⟩
  rcases stk with _ | ⟨_ | _, S⟩ <;> rcases err with _ | e1 <;> rcases input with _ | ⟨t, u⟩ <;>
    (try cases t)
  all_goals simp [Decoder.Token, Decoder.rawToken, Decoder.popElement] at h ⊢
  all_goals try split_ifs at h ⊢
  all_goals try simp_all

theorem Token_length (d : Decoder) (h : (Decoder.Token d).2.1 = none) :
    (Decoder.Token d).2.2.input.length + 1 = d.input.length := by
  rcases d with ⟨input, stk, err⟩
  rcases stk with _ | ⟨_ | _, S⟩ <;> rcases err with _ | e1 <;> rcases input with _ | ⟨t, u⟩ <;>
    (try cases t)
  all_goals simp [Decoder.Token, Decoder.rawToken, Decoder.popElement] at h ⊢
  all_goals try split_ifs at h ⊢
  all_goals try simp_all

theorem Token_input_le (d : Decoder) :
    (Decoder.Token d).2.2.input.length ≤ d.input.length := by
  rcases d with ⟨input, stk, err⟩
  rcases stk with _ | ⟨_ | _, S⟩ <;> rcases err with _ | e1 <;> rcases input with _ | ⟨t, u⟩ <;>
    (try cases t)
  all_goals simp [Decoder.Token, Decoder.rawToken, Decoder.popElement]
  all_goals try split_ifs
  all_goals try simp_all

theorem skipLoop_succ :
    ∀ (n : Nat) (d : Decoder) (dep : Nat) (r : Option Error × Decoder),
      Decoder.skipLoop n d dep = some r → Decoder.skipLoop (n + 1) d dep = some r := by
  intro n
  induction n with
  | zero => intro d dep r h; simp [Decoder.skipLoop] at h
  | succ n ih =>
    intro d dep r h
    rw [Decoder.skipLoop] at h ⊢
    rcases hT : d.Token with ⟨tok, err, d1⟩
    rw [hT] at h
    rcases err with _ | e
    · rcases tok with _ | t
      · exact ih _ _ _ h
      · cases t with
        | StartElement s => exact ih _ _ _ h
        | EndElement name =>
          simp only at h ⊢
          by_cases hd : dep = 0
          · simpa [hd] using h
          · simp only [hd, if_false] at h ⊢
            exact ih _ _ _ h
        | CharData s => exact ih _ _ _ h
        | Comment s => exact ih _ _ _ h
        | ProcInst a b => exact ih _ _ _ h
        | Directive s => exact ih _ _ _ h
    · simpa using h

theorem skipLoop_mono (n : Nat) (d : Decoder) (dep : Nat) (r : Option Error × Decoder)
    (h : Decoder.skipLoop n d dep = some r) :
    ∀ k, Decoder.skipLoop (n + k) d dep = some r := by
  intro k
  induction k with
  | zero => exact h
  | succ k ih => exact skipLoop_succ (n + k) d dep r ih

theorem skipLoop_isSome :
    ∀ (n : Nat) (d : Decoder) (dep : Nat), d.input.length < n →
      ∃ r, Decoder.skipLoop n d dep = some r ∧ r.2.input.length ≤ d.input.length := by
  intro n
  induction n with
  | zero => intro d dep h; omega
  | succ n ih =>
    intro d dep h
    rw [Decoder.skipLoop]
    have hlen := Token_length d
    rcases hT : d.Token with ⟨tok, err, d1⟩
    rw [hT] at hlen
    rcases err with _ | e
    · have hl : d1.input.length + 1 = d.input.length := hlen rfl
      have hlt : d1.input.length < n := by omega
      rcases tok with _ | t
      · obtain ⟨r, hr, hr2⟩ := ih d1 dep hlt
        exact ⟨r, hr, by omega⟩
      · cases t with
        | EndElement name =>
          simp only
          by_cases hd : dep = 0
          · exact ⟨(none, d1), by simp [hd], by simp; omega⟩
          · obtain ⟨r, hr, hr2⟩ := ih d1 (dep - 1) hlt
            exact ⟨r, by simp [hd, hr], by omega⟩
        | StartElement s =>
          obtain ⟨r, hr, hr2⟩ := ih d1 (dep + 1) hlt
          exact ⟨r, hr, by omega⟩
        | CharData s =>
          obtain ⟨r, hr, hr2⟩ := ih d1 dep hlt
          exact ⟨r, hr, by omega⟩
        | Comment s =>
          obtain ⟨r, hr, hr2⟩ := ih d1 dep hlt
          exact ⟨r, hr, by omega⟩
        | ProcInst a b =>
          obtain ⟨r, hr, hr2⟩ := ih d1 dep hlt
          exact ⟨r, hr, by omega⟩
        | Directive s =>
          obtain ⟨r, hr, hr2⟩ := ih d1 dep hlt
          exact ⟨r, hr, by omega⟩
    · refine ⟨(some e, d1), by simp, ?_⟩
      have := Token_input_le d
      rw [hT] at this
      exact this

theorem skipLoop_stable (n : Nat) (d : Decoder) (dep : Nat) (h : d.input.length < n) :
    Decoder.skipLoop n d dep = Decoder.skipLoop (d.input.length + 1) d dep := by
  obtain ⟨r, hr, _⟩ := skipLoop_isSome (d.input.length + 1) d dep (by omega)
  have := skipLoop_mono _ d dep r hr (n - (d.input.length + 1))
  rw [hr, ← this]
  congr 1
  omega

theorem Skip_eq (n : Nat) (d : Decoder) (h : d.input.length < n) :
    d.Skip = Decoder.skipLoop n d 0 := by
  rw [Decoder.Skip, skipLoop_stable n d 0 h]

theorem Skip_isSome (d : Decoder) :
    ∃ r, d.Skip = some r ∧ r.2.input.length ≤ d.input.length :=
  skipLoop_isSome (d.input.length + 1) d 0 (by omega)

theorem unmarshalLoop_succ :
    ∀ (n : Nat) (d : Decoder) (data : String) (r : String × Option Error × Decoder),
      Decoder.unmarshalLoop n d data = some r → Decoder.unmarshalLoop (n + 1) d data = some r := by
  intro n
  induction n with
  | zero => intro d data r h; simp [Decoder.unmarshalLoop] at h
  | succ n ih =>
    intro d data r h
    rw [Decoder.unmarshalLoop] at h ⊢
    rcases hT : d.Token with ⟨tok, err, d1⟩
    rw [hT] at h
    rcases err with _ | e
    · rcases tok with _ | t
      · exact ih _ _ _ h
      · cases t with
        | StartElement s =>
          simp only at h ⊢
          rcases hS : d1.Skip with _ | ⟨_ | e, d2⟩
          · rw [hS] at h; simp at h
          · rw [hS] at h; simp only at h ⊢; exact ih _ _ _ h
          · rw [hS] at h; simpa using h
        | EndElement name => simpa using h
        | CharData s => exact ih _ _ _ h
        | Comment s => exact ih _ _ _ h
        | ProcInst a b => exact ih _ _ _ h
        | Directive s => exact ih _ _ _ h
    · simpa using h

theorem unmarshalLoop_mono (n : Nat) (d : Decoder) (data : String)
    (r : String × Option Error × Decoder) (h : Decoder.unmarshalLoop n d data = some r) :
    ∀ k, Decoder.unmarshalLoop (n + k) d data = some r := by
  intro k
  induction k with
  | zero => exact h
  | succ k ih => exact unmarshalLoop_succ (n + k) d data r ih

theorem unmarshalLoop_isSome :
    ∀ (n : Nat) (d : Decoder) (data : String), d.input.length < n →
      ∃ r, Decoder.unmarshalLoop n d data = some r ∧ r.2.2.input.length ≤ d.input.length := by
  intro n
  induction n with
  | zero => intro d data h; omega
  | succ n ih =>
    intro d data h
    rw [Decoder.unmarshalLoop]
    have hlen := Token_length d
    have hle := Token_input_le d
    rcases hT : d.Token with ⟨tok, err, d1⟩
    rw [hT] at hlen hle
    rcases err with _ | e
    · have hl : d1.input.length + 1 = d.input.length := hlen rfl
      have hlt : d1.input.length < n := by omega
      rcases tok with _ | t
      · obtain ⟨r, hr, hr2⟩ := ih d1 data hlt
        exact ⟨r, hr, by omega⟩
      · cases t with
        | StartElement s =>
          simp only
          obtain ⟨⟨e2, d2⟩, hS, hS2⟩ := Skip_isSome d1
          rw [hS]
          rcases e2 with _ | e2
          · simp only at hS2 ⊢
            obtain ⟨r, hr, hr2⟩ := ih d2 data (by omega)
            exact ⟨r, hr, by omega⟩
          · exact ⟨("", some e2, d2), rfl, by simp at hS2 ⊢; omega⟩
        | EndElement name => exact ⟨(data, none, d1), rfl, by simp; omega⟩
        | CharData s =>
          obtain ⟨r, hr, hr2⟩ := ih d1 (data ++ s) hlt
          exact ⟨r, hr, by omega⟩
        | Comment s =>
          obtain ⟨r, hr, hr2⟩ := ih d1 data hlt
          exact ⟨r, hr, by omega⟩
        | ProcInst a b =>
          obtain ⟨r, hr, hr2⟩ := ih d1 data hlt
          exact ⟨r, hr, by omega⟩
        | Directive s =>
          obtain ⟨r, hr, hr2⟩ := ih d1 data hlt
          exact ⟨r, hr, by omega⟩
    · exact ⟨("", some e, d1), by simp, hle⟩

theorem DecodeElement_eq (n : Nat) (d : Decoder) (start : StartElement)
    (h : d.input.length < n) : d.DecodeElement start = Decoder.unmarshalLoop n d "" := by
  obtain ⟨r, hr, _⟩ := unmarshalLoop_isSome (d.input.length + 1) d "" (by omega)
  have := unmarshalLoop_mono _ d "" r hr (n - (d.input.length + 1))
  rw [Decoder.DecodeElement, hr, ← this]
  congr 1
  omega

theorem DecodeElement_isSome (d : Decoder) (start : StartElement) :
    ∃ r, d.DecodeElement start = some r ∧ r.2.2.input.length ≤ d.input.length :=
  unmarshalLoop_isSome (d.input.length + 1) d "" (by omega)

theorem skipLoop_sim (Q : Nat → Decoder → Decoder → Prop) (hQ : TokenSim Q) :
    ∀ (n : Nat) (d d' : Decoder) (dep k : Nat), Q (k + dep + 1) d d' →
      (Decoder.skipLoop n d dep = none ∧ Decoder.skipLoop n d' dep = none) ∨
      ∃ e d1 d1', Decoder.skipLoop n d dep = some (e, d1) ∧
        Decoder.skipLoop n d' dep = some (e, d1') ∧
        (e = none → Q k d1 d1') ∧ ∃ j, Q j d1 d1' := by
  intro n
  induction n with
  | zero => intro d d' dep k _; left; exact ⟨rfl, rfl⟩
  | succ n ih =>
    intro d d' dep k h
    have hstep := hQ (k + dep) d d' h
    rw [Decoder.skipLoop, Decoder.skipLoop]
    rcases hT : d.Token with ⟨tok, err, d1⟩
    rcases hT' : d'.Token with ⟨tok', err', d1'⟩
    rw [hT, hT'] at hstep
    obtain ⟨h1, h2, h3⟩ := hstep
    simp only at h1 h2 h3
    subst h1 h2
    rcases err with _ | e
    · rcases tok with _ | t
      · exact ih d1 d1' dep k h3
      · cases t with
        | StartElement s =>
          have h4 : Q (k + (dep + 1) + 1) d1 d1' := h3
          exact ih d1 d1' (dep + 1) k h4
        | EndElement name =>
          simp only [nextDepth, Nat.add_sub_cancel] at h3
          simp only
          by_cases hd : dep = 0
          · subst hd
            right
            exact ⟨none, d1, d1', by simp, by simp, fun _ => h3, ⟨_, h3⟩⟩
          · simp only [hd, if_false]
            have h4 : Q (k + (dep - 1) + 1) d1 d1' := by
              have : k + (dep - 1) + 1 = k + dep := by omega
              rw [this]; exact h3
            exact ih d1 d1' (dep - 1) k h4
        | CharData s => exact ih d1 d1' dep k h3
        | Comment s => exact ih d1 d1' dep k h3
        | ProcInst a b => exact ih d1 d1' dep k h3
        | Directive s => exact ih d1 d1' dep k h3
    · right
      exact ⟨some e, d1, d1', by simp, by simp, (fun hc => by cases hc), ⟨_, h3⟩⟩

theorem Skip_sim (Q : Nat → Decoder → Decoder → Prop) (hQ : TokenSim Q)
    (d d' : Decoder) (k : Nat) (h : Q (k + 1) d d') :
    ∃ e d1 d1', d.Skip = some (e, d1) ∧ d'.Skip = some (e, d1') ∧
      (e = none → Q k d1 d1') ∧ ∃ j, Q j d1 d1' := by
  have hn : d.input.length < d.input.length + d'.input.length + 1 := by omega
  have hn' : d'.input.length < d.input.length + d'.input.length + 1 := by omega
  rw [Skip_eq _ d hn, Skip_eq _ d' hn']
  rcases skipLoop_sim Q hQ (d.input.length + d'.input.length + 1) d d' 0 k h with ⟨h1, _⟩ | h1
  · obtain ⟨r, hr, _⟩ := skipLoop_isSome _ d 0 hn
    rw [hr] at h1
    cases h1
  · exact h1

theorem unmarshalLoop_sim (Q : Nat → Decoder → Decoder → Prop) (hQ : TokenSim Q) :
    ∀ (n : Nat) (d d' : Decoder) (data : String) (k : Nat), Q (k + 1) d d' →
      (Decoder.unmarshalLoop n d data = none ∧ Decoder.unmarshalLoop n d' data = none) ∨
      ∃ v e d1 d1', Decoder.unmarshalLoop n d data = some (v, e, d1) ∧
        Decoder.unmarshalLoop n d' data = some (v, e, d1') ∧
        (e = none → Q k d1 d1') ∧ ∃ j, Q j d1 d1' := by
  intro n
  induction n with
  | zero => intro d d' data k _; left; exact ⟨rfl, rfl⟩
  | succ n ih =>
    intro d d' data k h
    have hstep := hQ k d d' h
    rw [Decoder.unmarshalLoop, Decoder.unmarshalLoop]
    rcases hT : d.Token with ⟨tok, err, d1⟩
    rcases hT' : d'.Token with ⟨tok', err', d1'⟩
    rw [hT, hT'] at hstep
    obtain ⟨h1, h2, h3⟩ := hstep
    simp only at h1 h2 h3
    subst h1 h2
    rcases err with _ | e
    · rcases tok with _ | t
      · exact ih d1 d1' data k h3
      · cases t with
        | StartElement s =>
          have h4 : Q (k + 1 + 1) d1 d1' := h3
          obtain ⟨e2, d2, d2', hS, hS', hq, hj⟩ := Skip_sim Q hQ d1 d1' (k + 1) h4
          simp only [hS, hS']
          rcases e2 with _ | e2
          · exact ih d2 d2' data k (hq rfl)
          · right
            exact ⟨"", some e2, d2, d2', rfl, rfl, (fun hc => by cases hc), hj⟩
        | EndElement name =>
          simp only [nextDepth, Nat.add_sub_cancel] at h3
          right
          exact ⟨data, none, d1, d1', rfl, rfl, fun _ => h3, ⟨_, h3⟩⟩
        | CharData s => exact ih d1 d1' (data ++ s) k h3
        | Comment s => exact ih d1 d1' data k h3
        | ProcInst a b => exact ih d1 d1' data k h3
        | Directive s => exact ih d1 d1' data k h3
    · right
      exact ⟨"", some e, d1, d1', by simp, by simp, (fun hc => by cases hc), ⟨_, h3⟩⟩

theorem DecodeElement_sim (Q : Nat → Decoder → Decoder → Prop) (hQ : TokenSim Q)
    (d d' : Decoder) (start : StartElement) (k : Nat) (h : Q (k + 1) d d') :
    ∃ v e d1 d1', d.DecodeElement start = some (v, e, d1) ∧
      d'.DecodeElement start = some (v, e, d1') ∧
      (e = none → Q k d1 d1') ∧ ∃ j, Q j d1 d1' := by
  have hn : d.input.length < d.input.length + d'.input.length + 1 := by omega
  have hn' : d'.input.length < d.input.length + d'.input.length + 1 := by omega
  rw [DecodeElement_eq _ d start hn, DecodeElement_eq _ d' start hn']
  rcases unmarshalLoop_sim Q hQ (d.input.length + d'.input.length + 1) d d' "" k h
    with ⟨h1, _⟩ | h1
  · obtain ⟨r, hr, _⟩ := unmarshalLoop_isSome _ d "" hn
    rw [hr] at h1
    cases h1
  · exact h1

/-! ### C10: tokens between the children -/

theorem StripRel_tokenSim : TokenSim StripRel := by
  intro k d d' h
  rcases d with ⟨input, stk, err⟩
  rcases d' with ⟨input', stk', err'⟩
  obtain ⟨h1, h2, h3⟩ := h
  simp only at h1 h2 h3
  subst h1 h2
  rcases err with _ | e
  · have h4 := h3 rfl
    subst h4
    rcases stk with _ | ⟨_ | _, S⟩ <;> rcases input with _ | ⟨t, u⟩ <;> (try cases t)
    all_goals
      simp [Decoder.Token, Decoder.rawToken, Decoder.popElement, stripTop, nextDepth, StripRel]
    all_goals try split_ifs
    all_goals try simp_all [nextDepth, StripRel]
  · rcases stk with _ | ⟨_ | _, S⟩ <;>
      simp [Decoder.Token, Decoder.rawToken, nextDepth, StripRel]
    all_goals try split_ifs
    all_goals try simp_all [nextDepth, StripRel]

theorem StripRel_zero_step (d d' : Decoder) (h : StripRel 0 d d') (hj : junkHead d = false) :
    (Decoder.Token d).1 = (Decoder.Token d').1 ∧
    (Decoder.Token d).2.1 = (Decoder.Token d').2.1 ∧
    StripRel (nextDepth 0 (Decoder.Token d).1) (Decoder.Token d).2.2 (Decoder.Token d').2.2 := by
  rcases d with ⟨input, stk, err⟩
  rcases d' with ⟨input', stk', err'⟩
  obtain ⟨h1, h2, h3⟩ := h
  simp only at h1 h2 h3
  subst h1 h2
  rcases err with _ | e
  · have h4 := h3 rfl
    subst h4
    rcases stk with _ | ⟨_ | _, S⟩ <;> rcases input with _ | ⟨t, u⟩ <;> (try cases t)
    all_goals simp [junkHead] at hj
    all_goals
      simp [Decoder.Token, Decoder.rawToken, Decoder.popElement, stripTop, nextDepth, StripRel]
    all_goals try split_ifs
    all_goals try simp_all [nextDepth, StripRel]
  · rcases stk with _ | ⟨_ | _, S⟩ <;>
      simp [Decoder.Token, Decoder.rawToken, nextDepth, StripRel]
    all_goals try split_ifs
    all_goals try simp_all [nextDepth, StripRel]

theorem loop_junk (start : StartElement) (d : Decoder) (hj : junkHead d = true) :
    (∀ n m, UnmarshalXML.loop start (n + 1) d m =
      UnmarshalXML.loop start n { d with input := d.input.tail } m) ∧
    (∀ d', StripRel 0 d d' → StripRel 0 { d with input := d.input.tail } d') ∧
    d.input.tail.length < d.input.length := by
  rcases d with ⟨input, stk, err⟩
  rcases err with _ | e
  · rcases stk with _ | ⟨_ | _, S⟩ <;> rcases input with _ | ⟨t, u⟩ <;> (try cases t) <;>
      simp [junkHead] at hj <;>
      refine ⟨?_, ?_, ?_⟩ <;>
      simp [UnmarshalXML.loop, Decoder.Token, Decoder.rawToken, StripRel, stripTop]
  · simp [junkHead] at hj

theorem loop_round (start : StartElement) (d d' : Decoder) (m : PropertyMap)
    (h : StripRel 0 d d') (hj : junkHead d = false) :
    (∃ r r', r.err = r'.err ∧ r.p = r'.p ∧
      ∀ n, UnmarshalXML.loop start (n + 1) d m = some r ∧
        UnmarshalXML.loop start (n + 1) d' m = some r') ∨
    (∃ d1 d1' m1, StripRel 0 d1 d1' ∧
      ∀ n, UnmarshalXML.loop start (n + 1) d m = UnmarshalXML.loop start n d1 m1 ∧
        UnmarshalXML.loop start (n + 1) d' m = UnmarshalXML.loop start n d1' m1) := by
  have hstep := StripRel_zero_step d d' h hj
  rcases hT : d.Token with ⟨tok, err, d1⟩
  rcases hT' : d'.Token with ⟨tok', err', d1'⟩
  rw [hT, hT'] at hstep
  obtain ⟨h1, h2, h3⟩ := hstep
  simp only at h1 h2 h3
  subst h1 h2
  by_cases he : err = some Error.EOF
  · left
    refine ⟨{ err := none, p := some m, d := d1 }, { err := none, p := some m, d := d1' },
      rfl, rfl, ?_⟩
    intro n
    simp [UnmarshalXML.loop, hT, hT', he]
  · have hother : ∀ n, (∀ s, tok ≠ some (Token.StartElement s)) →
        UnmarshalXML.loop start (n + 1) d m = UnmarshalXML.loop start n d1 m ∧
        UnmarshalXML.loop start (n + 1) d' m = UnmarshalXML.loop start n d1' m := by
      intro n hs
      rw [UnmarshalXML.loop, UnmarshalXML.loop, hT, hT']
      simp only [he, if_false]
      rcases tok with _ | t
      · exact ⟨trivial, trivial⟩
      · cases t with
        | StartElement s => exact absurd rfl (hs s)
        | EndElement name => exact ⟨trivial, trivial⟩
        | CharData s => exact ⟨trivial, trivial⟩
        | Comment s => exact ⟨trivial, trivial⟩
        | ProcInst a b => exact ⟨trivial, trivial⟩
        | Directive s => exact ⟨trivial, trivial⟩
    rcases tok with _ | t
    · right
      exact ⟨d1, d1', m, h3, fun n => hother n (by simp)⟩
    · cases t with
      | StartElement s =>
        have h4 : StripRel (0 + 1) d1 d1' := h3
        obtain ⟨v, e, d2, d2', hD, hD', hq, -⟩ :=
          DecodeElement_sim StripRel StripRel_tokenSim d1 d1' start 0 h4
        rcases e with _ | e
        · right
          refine ⟨d2, d2', PropertyMap.set m s.Name.Local v, hq rfl, ?_⟩
          intro n
          rw [UnmarshalXML.loop, UnmarshalXML.loop, hT, hT']
          simp only [he, if_false, hD, hD']
          exact ⟨trivial, trivial⟩
        · left
          refine ⟨{ err := some e, p := some m, d := d2 }, { err := some e, p := some m, d := d2' },
            rfl, rfl, ?_⟩
          intro n
          rw [UnmarshalXML.loop, UnmarshalXML.loop, hT, hT']
          simp only [he, if_false, hD, hD']
          exact ⟨trivial, trivial⟩
      | EndElement name =>
        right
        exact ⟨d1, d1', m, h3, fun n => hother n (by simp)⟩
      | CharData s =>
        right
        exact ⟨d1, d1', m, h3, fun n => hother n (by simp)⟩
      | Comment s =>
        right
        exact ⟨d1, d1', m, h3, fun n => hother n (by simp)⟩
      | ProcInst a b =>
        right
        exact ⟨d1, d1', m, h3, fun n => hother n (by simp)⟩
      | Directive s =>
        right
        exact ⟨d1, d1', m, h3, fun n => hother n (by simp)⟩

theorem loop_strip_forth (start : StartElement) :
    ∀ (n : Nat) (d d' : Decoder) (m : PropertyMap) (r : Decoded), StripRel 0 d d' →
      UnmarshalXML.loop start n d m = some r →
      ∃ n' r', UnmarshalXML.loop start n' d' m = some r' ∧ r'.err = r.err ∧ r'.p = r.p := by
  intro n
  induction n with
  | zero => intro d d' m r _ h; simp [UnmarshalXML.loop] at h
  | succ n ih =>
    intro d d' m r hrel h
    cases hj : junkHead d with
    | true =>
      obtain ⟨h1, h2, _⟩ := loop_junk start d hj
      rw [h1] at h
      exact ih _ d' m r (h2 d' hrel) h
    | false =>
      rcases loop_round start d d' m hrel hj with ⟨r1, r1', he, hp, hn⟩ | ⟨d1, d1', m1, hrel1, hn⟩
      · rw [(hn n).1] at h
        cases h
        exact ⟨1, r1', (hn 0).2, he.symm, hp.symm⟩
      · rw [(hn n).1] at h
        obtain ⟨n', r', h1, h2, h3⟩ := ih d1 d1' m1 r hrel1 h
        exact ⟨n' + 1, r', by rw [(hn n').2]; exact h1, h2, h3⟩

theorem loop_strip_back (start : StartElement) :
    ∀ (n' : Nat) (len : Nat) (d d' : Decoder) (m : PropertyMap) (r' : Decoded),
      d.input.length = len → StripRel 0 d d' →
      UnmarshalXML.loop start n' d' m = some r' →
      ∃ n r, UnmarshalXML.loop start n d m = some r ∧ r.err = r'.err ∧ r.p = r'.p := by
  intro n'
  induction n' with
  | zero => intro len d d' m r' _ _ h; simp [UnmarshalXML.loop] at h
  | succ n' ih =>
    intro len
    induction len using Nat.strong_induction_on with
    | _ len ihlen =>
      intro d d' m r' hlen hrel h
      cases hj : junkHead d with
      | true =>
        obtain ⟨h1, h2, h3⟩ := loop_junk start d hj
        obtain ⟨n, r, hr, he, hp⟩ :=
          ihlen _ (by rw [← hlen]; exact h3) { d with input := d.input.tail } d' m r' rfl
            (h2 d' hrel) h
        exact ⟨n + 1, r, by rw [h1]; exact hr, he, hp⟩
      | false =>
        rcases loop_round start d d' m hrel hj with
          ⟨r1, r1', he, hp, hn⟩ | ⟨d1, d1', m1, hrel1, hn⟩
        · rw [(hn n').2] at h
          cases h
          exact ⟨1, r1, (hn 0).1, he, hp⟩
        · rw [(hn n').2] at h
          obtain ⟨n, r, h1, h2, h3⟩ := ih _ d1 d1' m1 r' rfl hrel1 h
          exact ⟨n + 1, r, by rw [(hn n).1]; exact h1, h2, h3⟩

theorem StripRel_init (input : List Token) (stk : List Stack) :
    StripRel 0 { input := input, stk := stk, err := none }
      { input := stripTop 0 input, stk := stk, err := none } :=
  ⟨rfl, rfl, fun _ => rfl⟩

theorem unmarshal_strip (p : Properties) (w : StartElement) (stk : List Stack)
    (input : List Token) (err : Option Error) (q : Properties) :
    (∃ fuel r, UnmarshalXML fuel p { input := input, stk := stk, err := none } w = some r ∧
      r.err = err ∧ r.p = q) ↔
    (∃ fuel r, UnmarshalXML fuel p { input := stripTop 0 input, stk := stk, err := none } w
      = some r ∧ r.err = err ∧ r.p = q) := by
  constructor
  · rintro ⟨fuel, r, h, he, hp⟩
    obtain ⟨n', r', h1, h2, h3⟩ := loop_strip_forth w fuel _ _ [] r (StripRel_init input stk) h
    exact ⟨n', r', h1, by rw [h2, he], by rw [h3, hp]⟩
  · rintro ⟨fuel, r, h, he, hp⟩
    obtain ⟨n', r', h1, h2, h3⟩ :=
      loop_strip_back w fuel _ _ _ [] r rfl (StripRel_init input stk) h
    exact ⟨n', r', h1, by rw [h2, he], by rw [h3, hp]⟩

/-- C10: two token streams that differ only by tokens that are neither start nor
end elements (character data, comments, processing instructions, directives)
standing between the children of the wrapper, outside any child, are decoded
alike from any state of the decoder's stack: `UnmarshalXML` returns on the one
exactly when it returns on the other, with the same error and the same map. -/
theorem C10_non_element_tokens_ignored (p : Properties) (w : StartElement)
    (stk : List Stack) (input1 input2 : List Token) (err : Option Error) (q : Properties)
    (hstrip : stripTop 0 input1 = stripTop 0 input2) :
    (∃ fuel r, UnmarshalXML fuel p { input := input1, stk := stk, err := none } w = some r ∧
      r.err = err ∧ r.p = q) ↔
    (∃ fuel r, UnmarshalXML fuel p { input := input2, stk := stk, err := none } w = some r ∧
      r.err = err ∧ r.p = q) := by
  rw [unmarshal_strip p w stk input1, unmarshal_strip p w stk input2, hstrip]

theorem C10_non_element_tokens_ignored_witness :
    (∃ fuel r, UnmarshalXML fuel none
        { input := [Token.CharData "\n", Token.StartElement ⟨⟨"", "a"⟩, []⟩, Token.CharData "1",
                    Token.EndElement ⟨"", "a"⟩, Token.Comment "c",
                    Token.EndElement ⟨"", "properties"⟩],
          stk := [Stack.stkStart ⟨"", "properties"⟩, Stack.stkEOF], err := none }
        ⟨⟨"", "properties"⟩, []⟩ = some r ∧ r.err = none ∧ r.p = some [("a", "1")]) ↔
    (∃ fuel r, UnmarshalXML fuel none
        { input := [Token.StartElement ⟨⟨"", "a"⟩, []⟩, Token.CharData "1",
                    Token.EndElement ⟨"", "a"⟩, Token.ProcInst "x" "y",
                    Token.EndElement ⟨"", "properties"⟩],
          stk := [Stack.stkStart ⟨"", "properties"⟩, Stack.stkEOF], err := none }
        ⟨⟨"", "properties"⟩, []⟩ = some r ∧ r.err = none ∧ r.p = some [("a", "1")]) :=
  C10_non_element_tokens_ignored none ⟨⟨"", "properties"⟩, []⟩
    [Stack.stkStart ⟨"", "properties"⟩, Stack.stkEOF] _ _ none (some [("a", "1")]) (by decide)

/-! ### C5: the end of the wrapper -/

theorem closedBy_other (k : Nat) (t : Token) (u : List Token)
    (h1 : ∀ s, t ≠ Token.StartElement s) (h2 : ∀ n, t ≠ Token.EndElement n) :
    closedBy k (t :: u) = closedBy k u := by
  cases k <;> cases t <;> simp_all [closedBy]

theorem TailRel_step (post : List Token) (k : Nat) (d d' : Decoder)
    (h : TailRel post k d d') :
    (Decoder.Token d).1 = (Decoder.Token d').1 ∧
    (Decoder.Token d).2.1 = (Decoder.Token d').2.1 ∧
    TailRel post (nextDepth k (Decoder.Token d).1) (Decoder.Token d).2.2
      (Decoder.Token d').2.2 := by
  rcases d with ⟨input, stk, err⟩
  rcases d' with ⟨input', stk', err'⟩
  obtain ⟨h1, h2, h3, h4⟩ := h
  simp only at h1 h2 h3 h4
  subst h1 h2 h3
  rcases err with _ | e
  · obtain ⟨L, S, hstk, hlen, hL, hcl⟩ := h4 rfl
    subst hstk
    rcases L with _ | ⟨x, L⟩
    · simp only [List.length_nil] at hlen
      subst hlen
      simp only [List.nil_append, Token_mark, nextDepth]
      exact ⟨by trivial, by trivial, rfl, rfl, rfl, fun _ => ⟨[], S, rfl, rfl, by simp, by simp⟩⟩
    · simp only [List.length_cons] at hlen
      subst hlen
      have hx : x ≠ Stack.stkEOF := hL x (List.mem_cons_self _ _)
      have hL2 : ∀ y ∈ L, y ≠ Stack.stkEOF := fun y hy => hL y (List.mem_cons_of_mem _ hy)
      have hc : closedBy L.length input' = true := hcl L.length rfl
      rcases x with nm | _
      · rcases input' with _ | ⟨t, u⟩
        · simp [closedBy] at hc
        · cases t with
          | StartElement s =>
            simp only [closedBy] at hc
            simp only [List.cons_append, Token_start _ _ _ (by simp : (Stack.stkStart nm :: (L ++ Stack.stkEOF :: S)).head? ≠ some Stack.stkEOF), nextDepth]
            refine ⟨by trivial, by trivial, rfl, rfl, rfl, fun _ =>
              ⟨Stack.stkStart s.Name :: Stack.stkStart nm :: L, S, rfl, rfl, ?_, ?_⟩⟩
            · intro y hy
              rcases List.mem_cons.mp hy with hy | hy
              · subst hy; simp
              · exact hL y hy
            · intro j hj
              have : j = L.length + 1 := by omega
              subst this
              exact hc
          | EndElement n =>
            by_cases hn : nm = n
            · subst hn
              simp only [List.cons_append, Token_end, nextDepth, Nat.add_sub_cancel]
              refine ⟨by trivial, by trivial, rfl, rfl, rfl, fun _ => ⟨L, S, rfl, rfl, hL2, ?_⟩⟩
              intro j hj
              rw [hj] at hc
              simpa [closedBy] using hc
            · have hne : ¬ (nm.Local = n.Local ∧ nm.Space = n.Space) := by
                intro hc2
                apply hn
                cases nm; cases n
                simp_all
              simp only [List.cons_append, Decoder.Token, Decoder.rawToken, Decoder.popElement,
                List.head?_cons]
              by_cases hl : nm.Local = n.Local
              · have hsp : ¬ nm.Space = n.Space := fun hc2 => hne ⟨hl, hc2⟩
                simp [hl, hsp, nextDepth, TailRel]
              · simp [hl, nextDepth, TailRel]
          | CharData s =>
            rw [closedBy_other _ _ _ (by simp) (by simp)] at hc
            simp only [List.cons_append, Decoder.Token, Decoder.rawToken, List.head?_cons, nextDepth]
            simp only [reduceCtorEq, if_false, Option.some.injEq]
            refine ⟨by trivial, by trivial, rfl, rfl, rfl, fun _ => ⟨Stack.stkStart nm :: L, S, rfl, rfl, hL, ?_⟩⟩
            intro j hj
            have : j = L.length := by omega
            subst this
            exact hc
          | Comment s =>
            rw [closedBy_other _ _ _ (by simp) (by simp)] at hc
            simp only [List.cons_append, Decoder.Token, Decoder.rawToken, List.head?_cons, nextDepth]
            simp only [reduceCtorEq, if_false, Option.some.injEq]
            refine ⟨by trivial, by trivial, rfl, rfl, rfl, fun _ => ⟨Stack.stkStart nm :: L, S, rfl, rfl, hL, ?_⟩⟩
            intro j hj
            have : j = L.length := by omega
            subst this
            exact hc
          | ProcInst a b =>
            rw [closedBy_other _ _ _ (by simp) (by simp)] at hc
            simp only [List.cons_append, Decoder.Token, Decoder.rawToken, List.head?_cons, nextDepth]
            simp only [reduceCtorEq, if_false, Option.some.injEq]
            refine ⟨by trivial, by trivial, rfl, rfl, rfl, fun _ => ⟨Stack.stkStart nm :: L, S, rfl, rfl, hL, ?_⟩⟩
            intro j hj
            have : j = L.length := by omega
            subst this
            exact hc
          | Directive s =>
            rw [closedBy_other _ _ _ (by simp) (by simp)] at hc
            simp only [List.cons_append, Decoder.Token, Decoder.rawToken, List.head?_cons, nextDepth]
            simp only [reduceCtorEq, if_false, Option.some.injEq]
            refine ⟨by trivial, by trivial, rfl, rfl, rfl, fun _ => ⟨Stack.stkStart nm :: L, S, rfl, rfl, hL, ?_⟩⟩
            intro j hj
            have : j = L.length := by omega
            subst this
            exact hc
      · exact absurd rfl hx
  · rcases stk with _ | ⟨_ | _, S⟩ <;>
      simp [Decoder.Token, Decoder.rawToken, nextDepth, TailRel]
    all_goals try split_ifs
    all_goals try simp_all [nextDepth, TailRel]

theorem TailRel_tokenSim (post : List Token) : TokenSim (TailRel post) :=
  fun k d d' h => TailRel_step post (k + 1) d d' h

theorem loop_tail (start : StartElement) (post : List Token) :
    ∀ (n : Nat) (d d' : Decoder) (m : PropertyMap) (k : Nat), TailRel post k d d' →
      (UnmarshalXML.loop start n d m = none ∧ UnmarshalXML.loop start n d' m = none) ∨
      ∃ r r', UnmarshalXML.loop start n d m = some r ∧
        UnmarshalXML.loop start n d' m = some r' ∧
        r.err = r'.err ∧ r.p = r'.p ∧ ∃ j, TailRel post j r.d r'.d := by
  intro n
  induction n with
  | zero => intro d d' m k _; left; exact ⟨rfl, rfl⟩
  | succ n ih =>
    intro d d' m k h
    have hstep := TailRel_step post k d d' h
    rw [UnmarshalXML.loop, UnmarshalXML.loop]
    rcases hT : d.Token with ⟨tok, err, d1⟩
    rcases hT' : d'.Token with ⟨tok', err', d1'⟩
    rw [hT, hT'] at hstep
    obtain ⟨h1, h2, h3⟩ := hstep
    simp only at h1 h2 h3
    subst h1 h2
    simp only
    by_cases he : err = some Error.EOF
    · right
      simp only [he, if_true]
      exact ⟨_, _, rfl, rfl, rfl, rfl, ⟨_, h3⟩⟩
    · simp only [he, if_false]
      rcases tok with _ | t
      · exact ih d1 d1' m _ h3
      · cases t with
        | StartElement s =>
          have h4 : TailRel post (k + 1) d1 d1' := h3
          obtain ⟨v, e, d2, d2', hD, hD', hq, hj⟩ :=
            DecodeElement_sim (TailRel post) (TailRel_tokenSim post) d1 d1' start k h4
          simp only [hD, hD']
          rcases e with _ | e
          · exact ih d2 d2' _ k (hq rfl)
          · right
            exact ⟨_, _, rfl, rfl, rfl, rfl, hj⟩
        | EndElement name => exact ih d1 d1' m _ h3
        | CharData s => exact ih d1 d1' m _ h3
        | Comment s => exact ih d1 d1' m _ h3
        | ProcInst a b => exact ih d1 d1' m _ h3
        | Directive s => exact ih d1 d1' m _ h3

/-- C5, as amended: when the decoder carries the end mark that `encoding/xml` puts
below the wrapper before it calls `UnmarshalXML`, no token behind the
wrapper's matching end element is read. For every stream `pre` that ends with
the end element closing the wrapper and all tokens `post` behind it, the call
gives what it gives on `pre` alone (same error, same map, or no return in both
cases) and leaves `post` unread in the decoder. -/
theorem C5_stops_at_close_under_mark (p : Properties) (w : StartElement)
    (outer : List Stack) (pre post : List Token) (fuel : Nat)
    (hpre : closedBy 0 pre = true) :
    UnmarshalXML fuel p
        (Decoder.pushEOF
          { input := pre ++ post, stk := Stack.stkStart w.Name :: outer, err := none }) w =
      (UnmarshalXML fuel p
        (Decoder.pushEOF
          { input := pre, stk := Stack.stkStart w.Name :: outer, err := none }) w).map
        (fun r => { r with d := { r.d with input := r.d.input ++ post } }) := by
  have hrel : TailRel post 1
      { input := pre ++ post, stk := Stack.stkStart w.Name :: Stack.stkEOF :: outer, err := none }
      { input := pre, stk := Stack.stkStart w.Name :: Stack.stkEOF :: outer, err := none } := by
    refine ⟨rfl, rfl, rfl, fun _ => ⟨[Stack.stkStart w.Name], outer, rfl, rfl, by simp, ?_⟩⟩
    intro j hj
    have : j = 0 := by omega
    subst this
    exact hpre
  simp only [UnmarshalXML, Decoder.pushEOF, pushEOFStack]
  rcases loop_tail w post fuel _ _ [] 1 hrel with ⟨h1, h2⟩ | ⟨r, r', h1, h2, he, hp, j, hj⟩
  · rw [h1, h2]; rfl
  · rw [h1, h2]
    obtain ⟨hs, hee, hi, -⟩ := hj
    rcases r with ⟨e1, p1, ⟨i1, s1, x1⟩⟩
    rcases r' with ⟨e2, p2, ⟨i2, s2, x2⟩⟩
    simp only at he hp hs hee hi
    subst he hp hs hee hi
    rfl

theorem C5_stops_at_close_under_mark_witness :
    UnmarshalXML 3 none
        (Decoder.pushEOF
          { input := [Token.StartElement ⟨⟨"", "a"⟩, []⟩, Token.CharData "1",
                      Token.EndElement ⟨"", "a"⟩, Token.EndElement ⟨"", "properties"⟩] ++
                     [Token.StartElement ⟨⟨"", "b"⟩, []⟩, Token.CharData "2",
                      Token.EndElement ⟨"", "b"⟩],
            stk := Stack.stkStart (StartElement.Name ⟨⟨"", "properties"⟩, []⟩) :: [],
            err := none }) ⟨⟨"", "properties"⟩, []⟩ =
      (UnmarshalXML 3 none
        (Decoder.pushEOF
          { input := [Token.StartElement ⟨⟨"", "a"⟩, []⟩, Token.CharData "1",
                      Token.EndElement ⟨"", "a"⟩, Token.EndElement ⟨"", "properties"⟩],
            stk := Stack.stkStart (StartElement.Name ⟨⟨"", "properties"⟩, []⟩) :: [],
            err := none }) ⟨⟨"", "properties"⟩, []⟩).map
        (fun r => { r with d := { r.d with input := r.d.input ++
          [Token.StartElement ⟨⟨"", "b"⟩, []⟩, Token.CharData "2",
           Token.EndElement ⟨"", "b"⟩] } }) :=
  C5_stops_at_close_under_mark none ⟨⟨"", "properties"⟩, []⟩ [] _ _ 3 (by decide)

/-- C5 (counterexample): without the end mark, called on a decoder that has read
the wrapper's start element itself, `UnmarshalXML` reads on behind the
wrapper's end element: the element `b` that follows the wrapper is consumed
and becomes an entry of the map. -/
theorem C5_counterexample :
    UnmarshalXML 4 none
        { input := [Token.StartElement ⟨⟨"", "a"⟩, []⟩, Token.CharData "1",
                    Token.EndElement ⟨"", "a"⟩, Token.EndElement ⟨"", "properties"⟩,
                    Token.StartElement ⟨⟨"", "b"⟩, []⟩, Token.CharData "2",
                    Token.EndElement ⟨"", "b"⟩],
          stk := [Stack.stkStart ⟨"", "properties"⟩], err := none }
        ⟨⟨"", "properties"⟩, []⟩ =
      some { err := none, p := some [("a", "1"), ("b", "2")],
             d := { input := [], stk := [], err := some Error.EOF } } := by
  decide

/-! ### C6 and C9: errors -/

/-- An error of `Token` other than `io.EOF` does not end the loop: the round is
over and the next one starts, the error is dropped. -/
theorem loop_ignores_token_error (start : StartElement) (n : Nat) (d d1 : Decoder)
    (m : PropertyMap) (e : Error) (he : e ≠ Error.EOF)
    (hT : d.Token = (none, some e, d1)) :
    UnmarshalXML.loop start (n + 1) d m = UnmarshalXML.loop start n d1 m := by
  rw [UnmarshalXML.loop, hT]
  simp [he]

/-- An error of `DecodeElement` ends the call at once and is returned. -/
theorem loop_returns_decode_error (start : StartElement) (n : Nat) (d d1 d2 : Decoder)
    (m : PropertyMap) (s : StartElement) (v : String) (e : Error)
    (hT : d.Token = (some (Token.StartElement s), none, d1))
    (hD : d1.DecodeElement start = some (v, some e, d2)) :
    UnmarshalXML.loop start (n + 1) d m = some { err := some e, p := some m, d := d2 } := by
  rw [UnmarshalXML.loop, hT]
  simp [hD]

/-- C6 (the code at the failing input): after the child `a` the wrapper
`properties` is closed by `</b>`. `Token` reports the syntax error
`element <properties> closed by </b>`; `UnmarshalXML` does not return it: the
loop goes on, the next call of `Token` reports `io.EOF` at the end mark, and
the call returns nil with the map of `a`. -/
theorem C6_token_error_is_dropped :
    (Decoder.Token
        { input := [Token.EndElement ⟨"", "b"⟩],
          stk := [Stack.stkStart ⟨"", "properties"⟩, Stack.stkEOF, Stack.stkStart ⟨"", "project"⟩],
          err := none }).2.1 =
      some (Error.XMLSyntaxError "element <properties> closed by </b>") ∧
    UnmarshalXML 3 none
        (Decoder.pushEOF
          { input := [Token.StartElement ⟨⟨"", "a"⟩, []⟩, Token.CharData "1",
                      Token.EndElement ⟨"", "a"⟩, Token.EndElement ⟨"", "b"⟩],
            stk := [Stack.stkStart ⟨"", "properties"⟩, Stack.stkStart ⟨"", "project"⟩],
            err := none }) ⟨⟨"", "properties"⟩, []⟩ =
      some { err := none, p := some [("a", "1")],
             d := { input := [],
                    stk := [Stack.stkEOF, Stack.stkStart ⟨"", "project"⟩],
                    err := some (Error.XMLSyntaxError "element <properties> closed by </b>") } } := by
  decide

/-- C9 (counterexample): the stream ends inside the second child. `UnmarshalXML`
returns the error of `DecodeElement`, and the receiver holds the entry of the
first child. -/
theorem C9_counterexample :
    UnmarshalXML 2 (some [("old", "x")])
        (Decoder.pushEOF
          { input := [Token.StartElement ⟨⟨"", "a"⟩, []⟩, Token.CharData "1",
                      Token.EndElement ⟨"", "a"⟩,
                      Token.StartElement ⟨⟨"", "b"⟩, []⟩, Token.CharData "2"],
            stk := [Stack.stkStart ⟨"", "properties"⟩, Stack.stkStart ⟨"", "project"⟩],
            err := none }) ⟨⟨"", "properties"⟩, []⟩ =
      some { err := some (Error.XMLSyntaxError "unexpected EOF"), p := some [("a", "1")],
             d := { input := [],
                    stk := [Stack.stkStart ⟨"", "b"⟩, Stack.stkStart ⟨"", "properties"⟩,
                            Stack.stkEOF, Stack.stkStart ⟨"", "project"⟩],
                    err := some Error.EOF } } := by
  decide

/-- C9, as amended: when the decoding of a child's value fails after the leaf
children `cs` were decoded, `UnmarshalXML` returns that error and the receiver
holds the new map with exactly the entries of `cs`: its prior content is gone
and nothing of the failed decode is taken back. -/
theorem C9_receiver_keeps_decoded_entries (p : Properties) (w s : StartElement)
    (cs : List Leaf) (tail : List Token) (S : List Stack) (fuel : Nat)
    (v : String) (e : Error) (d2 : Decoder)
    (hS : S.head? ≠ some Stack.stkEOF)
    (hfail : Decoder.DecodeElement
      { input := tail, stk := Stack.stkStart s.Name :: S, err := none } w
        = some (v, some e, d2)) :
    UnmarshalXML (cs.length + (fuel + 1)) p
        { input := leafTokens cs ++ Token.StartElement s :: tail, stk := S, err := none } w =
      some { err := some e, p := some (storeLeaves [] cs), d := d2 } := by
  simp only [UnmarshalXML]
  rw [loop_leaves w S _ hS cs [] (fuel + 1)]
  exact loop_returns_decode_error w fuel _ _ d2 _ s v e (Token_start s tail S hS) hfail

theorem C9_receiver_keeps_decoded_entries_witness :
    UnmarshalXML ([(⟨⟨⟨"", "a"⟩, []⟩, ["1"]⟩ : Leaf)].length + (0 + 1)) (some [("old", "x")])
        { input := leafTokens [⟨⟨⟨"", "a"⟩, []⟩, ["1"]⟩] ++
            Token.StartElement ⟨⟨"", "b"⟩, []⟩ :: [Token.CharData "2"],
          stk := [Stack.stkStart ⟨"", "properties"⟩, Stack.stkEOF], err := none }
        ⟨⟨"", "properties"⟩, []⟩ =
      some { err := some (Error.XMLSyntaxError "unexpected EOF"),
             p := some (storeLeaves [] [⟨⟨⟨"", "a"⟩, []⟩, ["1"]⟩]),
             d := { input := [],
                    stk := [Stack.stkStart ⟨"", "b"⟩, Stack.stkStart ⟨"", "properties"⟩,
                            Stack.stkEOF],
                    err := some Error.EOF } } :=
  C9_receiver_keeps_decoded_entries (some [("old", "x")]) ⟨⟨"", "properties"⟩, []⟩
    ⟨⟨"", "b"⟩, []⟩ [⟨⟨⟨"", "a"⟩, []⟩, ["1"]⟩] [Token.CharData "2"]
    [Stack.stkStart ⟨"", "properties"⟩, Stack.stkEOF] 0 ""
    (Error.XMLSyntaxError "unexpected EOF") _ (by decide) (by decide)

/-! ### C8: empty fields on encoding -/

/-- C8 (the code at the failing input): the project with only `GroupId` = `g` and
`ArtifactId` = `a` set is not written as a `project` element with the two
leaves alone. The zero `Parent`, `DependencyManagement` and `Build` records
are written as elements, since `omitempty` never holds of a struct, and the
wrapper elements of the empty sequences are written too. -/
theorem C8_zero_records_are_written :
    MavenProject.marshal { GroupId := "g", ArtifactId := "a" } [] =
      [Token.StartElement ⟨⟨"", "project"⟩, []⟩,
       Token.StartElement ⟨⟨"", "parent"⟩, []⟩, Token.EndElement ⟨"", "parent"⟩,
       Token.StartElement ⟨⟨"", "groupId"⟩, []⟩, Token.CharData "g",
       Token.EndElement ⟨"", "groupId"⟩,
       Token.StartElement ⟨⟨"", "artifactId"⟩, []⟩, Token.CharData "a",
       Token.EndElement ⟨"", "artifactId"⟩,
       Token.StartElement ⟨⟨"", "repositories"⟩, []⟩, Token.EndElement ⟨"", "repositories"⟩,
       Token.StartElement ⟨⟨"", "dependencyManagement"⟩, []⟩,
       Token.StartElement ⟨⟨"", "dependencies"⟩, []⟩, Token.EndElement ⟨"", "dependencies"⟩,
       Token.EndElement ⟨"", "dependencyManagement"⟩,
       Token.StartElement ⟨⟨"", "dependencies"⟩, []⟩, Token.EndElement ⟨"", "dependencies"⟩,
       Token.StartElement ⟨⟨"", "build"⟩, []⟩,
       Token.StartElement ⟨⟨"", "plugins"⟩, []⟩, Token.EndElement ⟨"", "plugins"⟩,
       Token.EndElement ⟨"", "build"⟩,
       Token.StartElement ⟨⟨"", "pluginRepositories"⟩, []⟩,
       Token.EndElement ⟨"", "pluginRepositories"⟩,
       Token.StartElement ⟨⟨"", "modules"⟩, []⟩, Token.EndElement ⟨"", "modules"⟩,
       Token.EndElement ⟨"", "project"⟩] := by
  decide

/-! ### C12: the loop need not be left -/

theorem loop_items_truncated (start : StartElement) (n : Name) (S : List Stack)
    (items : List (List Junk × Leaf)) (trail : List Junk) (fuel : Nat) (m : PropertyMap) :
    UnmarshalXML.loop start fuel
      { input := itemTokens items ++ trail.map Junk.token, stk := Stack.stkStart n :: S,
        err := none } m = none := by
  cases h : UnmarshalXML.loop start fuel
      { input := itemTokens items ++ trail.map Junk.token, stk := Stack.stkStart n :: S,
        err := none } m with
  | none => rfl
  | some r =>
    have h1 := loop_mono start fuel _ m r h (itemRounds items + trail.length)
    have h2 := loop_items start (Stack.stkStart n :: S) (trail.map Junk.token) (by simp)
      items m (trail.length + fuel)
    have h3 := loop_junks start (Stack.stkStart n :: S) [] (by simp)
      (storeLeaves m (items.map Prod.snd)) trail fuel
    rw [List.append_nil] at h3
    rw [h3, loop_truncated] at h2
    have h4 : fuel + (itemRounds items + trail.length)
        = itemRounds items + (trail.length + fuel) := by omega
    rw [h4, h2] at h1
    cases h1

theorem Token_wrong_end (n b : Name) (rest : List Token) (hl : n.Local ≠ b.Local) :
    Decoder.Token { input := Token.EndElement b :: rest, stk := [Stack.stkStart n], err := none } =
      (none, some (Error.XMLSyntaxError ("element <" ++ n.Local ++ "> closed by </" ++ b.Local ++ ">")),
        { input := rest, stk := [],
          err := some (Error.XMLSyntaxError
            ("element <" ++ n.Local ++ "> closed by </" ++ b.Local ++ ">")) }) := by
  simp [Decoder.Token, Decoder.rawToken, Decoder.popElement, hl]

theorem Token_sticky (input : List Token) (msg : String) :
    Decoder.Token { input := input, stk := [], err := some (Error.XMLSyntaxError msg) } =
      (none, some (Error.XMLSyntaxError msg),
        { input := input, stk := [], err := some (Error.XMLSyntaxError msg) }) := by
  simp [Decoder.Token, Decoder.rawToken]

/-- C12 (the code at the failing inputs): the loop of `UnmarshalXML` is not left,
whatever the fuel, on a stream that ends before the wrapper's end element
(leaf children, with any tokens between and behind them, read under the end
mark of `encoding/xml`), and on a stream on which `Token` reports a syntax
error that stays (the wrapper `properties` closed by `</b>`, read without the
mark): line 123 leaves the loop on `io.EOF` only. -/
theorem C12_loop_is_not_left (p : Properties) (w : StartElement)
    (items : List (List Junk × Leaf)) (trail : List Junk) (outer : List Stack)
    (rest : List Token) (fuel : Nat) :
    UnmarshalXML fuel p
        (Decoder.pushEOF
          { input := itemTokens items ++ trail.map Junk.token,
            stk := Stack.stkStart w.Name :: outer, err := none }) w = none ∧
    UnmarshalXML fuel p
        { input := Token.EndElement ⟨"", "b"⟩ :: rest,
          stk := [Stack.stkStart ⟨"", "properties"⟩], err := none }
        ⟨⟨"", "properties"⟩, []⟩ = none := by
  refine ⟨?_, ?_⟩
  · simp only [UnmarshalXML, Decoder.pushEOF, pushEOFStack]
    exact loop_items_truncated w w.Name _ items trail fuel []
  · simp only [UnmarshalXML]
    cases fuel with
    | zero => rfl
    | succ fuel =>
      rw [UnmarshalXML.loop, Token_wrong_end ⟨"", "properties"⟩ ⟨"", "b"⟩ rest (by decide)]
      simp only [reduceCtorEq, if_false]
      exact loop_diverges _ _ _ (by simp) (Token_sticky rest _) fuel []

/-! ### C13: the receiver is replaced -/

theorem loop_receiver_some (start : StartElement) :
    ∀ (n : Nat) (d : Decoder) (m : PropertyMap) (r : Decoded),
      UnmarshalXML.loop start n d m = some r → ∃ m1, r.p = some m1 := by
  intro n
  induction n with
  | zero => intro d m r h; simp [UnmarshalXML.loop] at h
  | succ n ih =>
    intro d m r h
    rw [UnmarshalXML.loop] at h
    rcases hT : d.Token with ⟨token, err, d1⟩
    rw [hT] at h
    simp only at h
    by_cases he : err = some Error.EOF
    · simp only [he, if_true, Option.some.injEq] at h
      exact ⟨m, by rw [← h]⟩
    · simp only [he, if_false] at h
      cases token with
      | none => exact ih _ _ _ h
      | some t =>
        cases t with
        | StartElement s =>
          simp only at h
          rcases hD : d1.DecodeElement start with _ | ⟨value, _ | e, d2⟩
          · rw [hD] at h; simp at h
          · rw [hD] at h; exact ih _ _ _ h
          · rw [hD] at h
            simp only [Option.some.injEq] at h
            exact ⟨m, by rw [← h]⟩
        | EndElement name => exact ih _ _ _ h
        | CharData s => exact ih _ _ _ h
        | Comment s => exact ih _ _ _ h
        | ProcInst a b => exact ih _ _ _ h
        | Directive s => exact ih _ _ _ h

/-- C13: whatever the receiver holds before the call, `UnmarshalXML` gives on a
decoder what it gives with any other prior content, the empty map and the nil
map included (line 118 replaces the receiver), so no prior entry survives
unless the stream supplies it; whenever the call returns, the receiver is a
non-nil map; and an empty wrapper leaves the empty, non-nil map. -/
theorem C13_receiver_is_reset (p q : Properties) (d : Decoder) (w : StartElement)
    (outer : List Stack) (rest : List Token) (fuel : Nat) :
    UnmarshalXML fuel p d w = UnmarshalXML fuel q d w ∧
    UnmarshalXML fuel p d w = UnmarshalXML fuel (some []) d w ∧
    (∀ r, UnmarshalXML fuel p d w = some r → ∃ m, r.p = some m) ∧
    UnmarshalXML (fuel + 2) p
        (Decoder.pushEOF
          { input := Token.EndElement w.Name :: rest,
            stk := Stack.stkStart w.Name :: outer, err := none }) w =
      some { err := none, p := some [],
             d := { input := rest, stk := Stack.stkEOF :: outer, err := none } } := by
  refine ⟨rfl, rfl, ?_, ?_⟩
  · intro r h
    exact loop_receiver_some w fuel d [] r h
  · simp only [UnmarshalXML, Decoder.pushEOF, pushEOFStack]
    exact loop_close_marked w w.Name outer rest [] fuel

theorem C13_receiver_is_reset_witness :
    ∃ m, (Decoded.mk none (some [("a", "1")])
      { input := [], stk := [Stack.stkEOF], err := none }).p = some m :=
  (C13_receiver_is_reset (some [("old", "x"), ("a", "0")]) none
    (Decoder.pushEOF
      { input := [Token.StartElement ⟨⟨"", "a"⟩, []⟩, Token.CharData "1",
                  Token.EndElement ⟨"", "a"⟩, Token.EndElement ⟨"", "properties"⟩],
        stk := [Stack.stkStart ⟨"", "properties"⟩], err := none })
    ⟨⟨"", "properties"⟩, []⟩ [] [] 3).2.2.1
    (Decoded.mk none (some [("a", "1")]) { input := [], stk := [Stack.stkEOF], err := none })
    (by decide)

/-! ### C11: the exclusions of a dependency -/

theorem String.eq_empty_of_length (s : String) (h : (s.length == 0) = true) : s = "" := by
  have h0 : s.length = 0 := by simpa using h
  rcases s with ⟨l⟩
  cases l with
  | nil => rfl
  | cons a l => simp [String.length] at h0

theorem DecodeElement_one (n : Name) (S : List Stack) (tail : List Token) (s : String)
    (start : StartElement) :
    Decoder.DecodeElement
        { input := Token.CharData s :: Token.EndElement n :: tail,
          stk := Stack.stkStart n :: S, err := none } start =
      some (s, none, { input := tail, stk := S, err := none }) := by
  have h := DecodeElement_leaf n S tail [s] start
  simpa using h

theorem pathLoop_field_leaf {α : Type} (info : List (FieldInfo α)) (parents ps : List String)
    (n s : String) (rest : List Token) (S : List Stack) (v : α) (fuel : Nat)
    (get : α → String) (set : α → String → α)
    (hS : S.head? ≠ some Stack.stkEOF)
    (hm : matchPath info parents n =
      PathMatch.perfect ⟨ps, n, storeValue unmarshalString get set⟩) :
    pathLoop info (fuel + 1)
        { input := Token.StartElement ⟨⟨"", n⟩, []⟩ :: Token.CharData s ::
            Token.EndElement ⟨"", n⟩ :: rest, stk := S, err := none } parents v =
      pathLoop info fuel { input := rest, stk := S, err := none } parents (set v s) := by
  rw [pathLoop, Token_start _ _ _ hS]
  simp only [hm, storeValue, unmarshalString, DecodeElement_one]

theorem pathLoop_end {α : Type} (info : List (FieldInfo α)) (parents : List String)
    (n : Name) (rest : List Token) (S : List Stack) (v : α) (fuel : Nat) :
    pathLoop info (fuel + 1)
        { input := Token.EndElement n :: rest, stk := Stack.stkStart n :: S, err := none }
        parents v =
      some (none, v, { input := rest, stk := S, err := none }) := by
  rw [pathLoop, Token_end]

theorem exclusion_body (x : Exclusion) :
    (marshalRecord "exclusion" x.fields).body =
      Token.StartElement ⟨⟨"", "exclusion"⟩, []⟩ ::
        (marshalValue true (marshalString "groupId" x.GroupId) ++
          (marshalValue true (marshalString "artifactId" x.ArtifactId) ++
            [Token.EndElement ⟨"", "exclusion"⟩])) := by
  simp [marshalRecord, marshalStruct, marshalStruct.fields, Exclusion.fields, field, parentTrim,
    parentPush, commonPrefix]

theorem Exclusion_unmarshal_body (x : Exclusion) (S : List Stack) (rest : List Token)
    (extra : Nat) :
    Exclusion.unmarshal (extra + 3)
        { input := marshalValue true (marshalString "groupId" x.GroupId) ++
            (marshalValue true (marshalString "artifactId" x.ArtifactId) ++
              Token.EndElement ⟨"", "exclusion"⟩ :: rest),
          stk := Stack.stkStart ⟨"", "exclusion"⟩ :: S, err := none }
        ⟨⟨"", "exclusion"⟩, []⟩ {} =
      some (none, x.named, { input := rest, stk := S, err := none }) := by
  have hg : matchPath Exclusion.info [] "groupId" = PathMatch.perfect
      ⟨[], "groupId", storeValue unmarshalString (·.GroupId)
        (fun v s => { v with GroupId := s })⟩ := rfl
  have ha : matchPath Exclusion.info [] "artifactId" = PathMatch.perfect
      ⟨[], "artifactId", storeValue unmarshalString (·.ArtifactId)
        (fun v s => { v with ArtifactId := s })⟩ := rfl
  have hS : (Stack.stkStart ⟨"", "exclusion"⟩ :: S).head? ≠ some Stack.stkEOF := by simp
  rcases x with ⟨xn, g, a⟩
  simp only [Exclusion.unmarshal, unmarshalRecord, ne_eq, not_true_eq_false, if_false,
    marshalValue, marshalString, Bool.true_and, Exclusion.named]
  cases hge : (g.length == 0) <;> cases hae : (a.length == 0)
  · simp only [Bool.false_eq_true, if_false, List.cons_append, List.nil_append]
    have e : extra + 3 = (extra + 2) + 1 := rfl
    rw [e, pathLoop_field_leaf Exclusion.info [] [] "groupId" g _ _ _ _ _ _ hS hg]
    have e2 : extra + 2 = (extra + 1) + 1 := rfl
    rw [e2, pathLoop_field_leaf Exclusion.info [] [] "artifactId" a _ _ _ _ _ _ hS ha]
    rw [pathLoop_end]
  · have ha0 := String.eq_empty_of_length a hae
    subst ha0
    simp only [Bool.false_eq_true, if_false, if_true, List.cons_append, List.nil_append]
    have e : extra + 3 = (extra + 2) + 1 := rfl
    rw [e, pathLoop_field_leaf Exclusion.info [] [] "groupId" g _ _ _ _ _ _ hS hg]
    have e2 : extra + 2 = (extra + 1) + 1 := rfl
    rw [e2, pathLoop_end]
  · have hg0 := String.eq_empty_of_length g hge
    subst hg0
    simp only [Bool.false_eq_true, if_false, if_true, List.cons_append, List.nil_append]
    have e : extra + 3 = (extra + 2) + 1 := rfl
    rw [e, pathLoop_field_leaf Exclusion.info [] [] "artifactId" a _ _ _ _ _ _ hS ha]
    have e2 : extra + 2 = (extra + 1) + 1 := rfl
    rw [e2, pathLoop_end]
  · have hg0 := String.eq_empty_of_length g hge
    have ha0 := String.eq_empty_of_length a hae
    subst hg0 ha0
    simp only [if_true, List.nil_append]
    have e : extra + 3 = (extra + 2) + 1 := rfl
    rw [e, pathLoop_end]

theorem exclusions_loop (S : List Stack) (tail : List Token) :
    ∀ (xs : List Exclusion) (v : Dependency) (extra : Nat),
      pathLoop Dependency.info (xs.length + (extra + 4))
          { input := xs.flatMap (fun x => (marshalRecord "exclusion" x.fields).body) ++
              Token.EndElement ⟨"", "exclusions"⟩ :: tail,
            stk := Stack.stkStart ⟨"", "exclusions"⟩ :: S, err := none } ["exclusions"] v =
        some (none, { v with Exclusions := v.Exclusions ++ xs.map Exclusion.named },
          { input := tail, stk := S, err := none })
  | [], v, extra => by
    have e : ([] : List Exclusion).length + (extra + 4) = (extra + 3) + 1 := by simp
    rw [e]
    simp only [List.flatMap_nil, List.nil_append, pathLoop_end, List.map_nil, List.append_nil]
  | x :: xs, v, extra => by
    have e : (x :: xs).length + (extra + 4) = (xs.length + (extra + 4)) + 1 := by
      simp only [List.length_cons]; omega
    have hm : matchPath Dependency.info ["exclusions"] "exclusion" = PathMatch.perfect
        ⟨["exclusions"], "exclusion",
          storeSlice Exclusion.unmarshal {} (·.Exclusions)
            (fun v xs => { v with Exclusions := xs })⟩ := rfl
    have e3 : xs.length + (extra + 4) = (xs.length + extra + 1) + 3 := by omega
    have hx := Exclusion_unmarshal_body x (Stack.stkStart ⟨"", "exclusions"⟩ :: S)
      (xs.flatMap (fun x => (marshalRecord "exclusion" x.fields).body) ++
        Token.EndElement ⟨"", "exclusions"⟩ :: tail) (xs.length + extra + 1)
    rw [← e3] at hx
    have ih := exclusions_loop S tail xs
      { v with Exclusions := v.Exclusions ++ [x.named] } extra
    rw [e, List.flatMap_cons, exclusion_body]
    simp only [List.cons_append, List.append_assoc, List.nil_append]
    rw [pathLoop, Token_start _ _ _ (by simp)]
    simp only [hm, storeSlice, hx]
    rw [ih]
    simp

/-- The tokens that `Marshal` writes for a slice of structs under `omitempty`: the
elements one after the other, nothing for the empty slice. -/
theorem marshalValue_records (elems : List Marshalled) (h : ∀ e ∈ elems, e.isEmpty = false) :
    marshalValue true (marshalSlice true elems) = elems.flatMap (fun e => e.body) := by
  cases elems with
  | nil => simp [marshalValue, marshalSlice]
  | cons a l =>
    simp only [marshalValue, marshalSlice, List.length_cons, Bool.true_and]
    have h1 : (l.length + 1 == 0) = false := by simp
    simp only [h1, Bool.false_eq_true, if_false]
    apply List.flatMap_congr
    intro e he
    simp [marshalValue, h e he]

theorem dependency_body (v : Dependency) :
    (marshalRecord "dependency" v.fields).body =
      Token.StartElement ⟨⟨"", "dependency"⟩, []⟩ ::
        (marshalValue true (marshalString "groupId" v.GroupId) ++
          (marshalValue true (marshalString "artifactId" v.ArtifactId) ++
            (marshalValue true (marshalString "version" v.Version) ++
              (marshalValue true (marshalString "classifier" v.Classifier) ++
                (marshalValue true (marshalString "type" v.Type_) ++
                  (marshalValue true (marshalString "scope" v.Scope) ++
                    (exclusionsTokens v.Exclusions ++
                      [Token.EndElement ⟨"", "dependency"⟩]))))))) := by
  have hs := marshalValue_records
    (v.Exclusions.map (fun x => marshalRecord "exclusion" x.fields))
    (by intro e he; simp only [List.mem_map] at he; obtain ⟨x, _, rfl⟩ := he; rfl)
  rw [marshalRecord]
  simp only [marshalStruct, marshalStruct.fields, Dependency.fields, field, parentTrim,
    parentPush, commonPrefix, exclusionsTokens, hs, List.flatMap_map]
  simp

theorem Dependency_unmarshal_exclusions (v : Dependency) (xs : List Exclusion)
    (S : List Stack) (tail : List Token) (extra : Nat) :
    Dependency.unmarshal (xs.length + (extra + 6))
        { input := exclusionsTokens xs ++ Token.EndElement ⟨"", "dependency"⟩ :: tail,
          stk := Stack.stkStart ⟨"", "dependency"⟩ :: S, err := none }
        ⟨⟨"", "dependency"⟩, []⟩ v =
      some (none,
        { v with XMLName := ⟨"", "dependency"⟩,
                 Exclusions := v.Exclusions ++ xs.map Exclusion.named },
        { input := tail, stk := S, err := none }) := by
  have hm : matchPath Dependency.info [] "exclusions" = PathMatch.parent ["exclusions"] := rfl
  have h1 := exclusions_loop (Stack.stkStart ⟨"", "dependency"⟩ :: S)
    (Token.EndElement ⟨"", "dependency"⟩ :: tail) xs
    { v with XMLName := ⟨"", "dependency"⟩ } (extra + 1)
  have e : xs.length + (extra + 6) = (xs.length + (extra + 1 + 4)) + 1 := by omega
  have e2 : xs.length + (extra + 1 + 4) = (xs.length + (extra + 4)) + 1 := by omega
  simp only [Dependency.unmarshal, unmarshalRecord, ne_eq, not_true_eq_false, if_false,
    exclusionsTokens, List.cons_append, List.append_assoc, List.nil_append]
  rw [e, pathLoop, Token_start _ _ _ (by simp)]
  simp only [hm, h1]
  rw [e2, pathLoop_end]

/-- C11: for every dependency `v` and every sequence `xs` of `n` exclusions, the
element `dependency` that holds the wrapper `exclusions` with the `n` elements
`exclusion` of `xs`, as `Marshal` writes them, is decoded with nil error into
`v` with its `Exclusions` grown by exactly the `n` values of `xs`, in the order
of the source (`XMLName` holding the element name); and `Marshal` writes the
`Exclusions` of every dependency `w` as the wrapper `exclusions` holding one
element per exclusion in the order of the sequence, the same elements for the
decoded values as for `xs`. -/
theorem C11_exclusions_keep_order (v w : Dependency) (xs : List Exclusion)
    (S : List Stack) (tail : List Token) (extra : Nat) :
    Dependency.unmarshal (xs.length + (extra + 6))
        { input := exclusionsTokens xs ++ Token.EndElement ⟨"", "dependency"⟩ :: tail,
          stk := Stack.stkStart ⟨"", "dependency"⟩ :: S, err := none }
        ⟨⟨"", "dependency"⟩, []⟩ v =
      some (none,
        { v with XMLName := ⟨"", "dependency"⟩,
                 Exclusions := v.Exclusions ++ xs.map Exclusion.named },
        { input := tail, stk := S, err := none }) ∧
    (xs.map Exclusion.named).length = xs.length ∧
    (xs.map Exclusion.named).map (fun x => (x.GroupId, x.ArtifactId)) =
      xs.map (fun x => (x.GroupId, x.ArtifactId)) ∧
    (marshalRecord "dependency" w.fields).body =
      Token.StartElement ⟨⟨"", "dependency"⟩, []⟩ ::
        (marshalValue true (marshalString "groupId" w.GroupId) ++
          (marshalValue true (marshalString "artifactId" w.ArtifactId) ++
            (marshalValue true (marshalString "version" w.Version) ++
              (marshalValue true (marshalString "classifier" w.Classifier) ++
                (marshalValue true (marshalString "type" w.Type_) ++
                  (marshalValue true (marshalString "scope" w.Scope) ++
                    (Token.StartElement ⟨⟨"", "exclusions"⟩, []⟩ ::
                      (w.Exclusions.flatMap
                          (fun x => (marshalRecord "exclusion" x.fields).body) ++
                        [Token.EndElement ⟨"", "exclusions"⟩]) ++
                      [Token.EndElement ⟨"", "dependency"⟩]))))))) ∧
    exclusionsTokens (xs.map Exclusion.named) = exclusionsTokens xs := by
  refine ⟨Dependency_unmarshal_exclusions v xs S tail extra, by simp, ?_, ?_, ?_⟩
  · simp [Exclusion.named]
  · exact dependency_body w
  · simp only [exclusionsTokens, List.flatMap_map]
    rfl

/-- The example of the specification: a dependency with two exclusions is decoded
into the two values in the order of the source and written back as the same
tokens. -/
theorem exclusions_two :
    Dependency.unmarshal 8
        { input := (marshalRecord "dependency" twoExclusions.fields).body.tail,
          stk := [Stack.stkStart ⟨"", "dependency"⟩], err := none }
        ⟨⟨"", "dependency"⟩, []⟩ {} =
      some (none, twoExclusionsDecoded, { input := [], stk := [], err := none }) ∧
    (marshalRecord "dependency" twoExclusionsDecoded.fields).body =
      (marshalRecord "dependency" twoExclusions.fields).body := by
  decide

/-! ### C14: the path of the profiles -/

theorem Skip_profile_child (id : String) (S : List Stack) (rest : List Token) :
    Decoder.Skip
        { input := Token.StartElement ⟨⟨"", "id"⟩, []⟩ :: Token.CharData id ::
            Token.EndElement ⟨"", "id"⟩ :: Token.EndElement ⟨"", "profile"⟩ :: rest,
          stk := Stack.stkStart ⟨"", "profile"⟩ :: S, err := none } =
      some (none, { input := rest, stk := S, err := none }) := by
  simp [Decoder.Skip, Decoder.skipLoop, Token_start, Token_chardata, Token_end]

theorem profile_children_loop (S : List Stack) (tail : List Token) (x : Profile) :
    ∀ (ids : List String) (extra : Nat),
      pathLoop Profile.info (ids.length + (extra + 1))
          { input := ids.flatMap profileChild ++ Token.EndElement ⟨"", "profiles"⟩ :: tail,
            stk := Stack.stkStart ⟨"", "profiles"⟩ :: S, err := none } [] x =
        some (none, x, { input := tail, stk := S, err := none })
  | [], extra => by
    simp only [List.length_nil, Nat.zero_add, List.flatMap_nil, List.nil_append, pathLoop_end]
  | id :: ids, extra => by
    have e : (id :: ids).length + (extra + 1) = (ids.length + (extra + 1)) + 1 := by
      simp only [List.length_cons]; omega
    have hm : matchPath Profile.info [] "profile" = PathMatch.nothing := rfl
    have ih := profile_children_loop S tail x ids extra
    rw [e, List.flatMap_cons]
    simp only [profileChild, List.cons_append, List.nil_append]
    rw [pathLoop, Token_start _ _ _ (by simp)]
    simp only [hm, Skip_profile_child, ih]

theorem MavenProject_match_profiles :
    matchPath MavenProject.info [] "profiles" = PathMatch.perfect
      ⟨[], "profiles",
        storeSlice Profile.unmarshal {} (·.Profiles) (fun v xs => { v with Profiles := xs })⟩ :=
  rfl

theorem Profile_unmarshal_wrapper (ids : List String) (S : List Stack) (tail : List Token)
    (extra : Nat) :
    Profile.unmarshal (ids.length + (extra + 1))
        { input := ids.flatMap profileChild ++ Token.EndElement ⟨"", "profiles"⟩ :: tail,
          stk := Stack.stkStart ⟨"", "profiles"⟩ :: S, err := none }
        ⟨⟨"", "profiles"⟩, []⟩ {} =
      some (none, {}, { input := tail, stk := S, err := none }) := by
  simp only [Profile.unmarshal, unmarshalRecord]
  exact profile_children_loop S tail {} ids extra

theorem Profile_unmarshal_id (id : String) (S : List Stack) (tail : List Token) (extra : Nat) :
    Profile.unmarshal (extra + 2)
        { input := Token.StartElement ⟨⟨"", "id"⟩, []⟩ :: Token.CharData id ::
            Token.EndElement ⟨"", "id"⟩ :: Token.EndElement ⟨"", "profiles"⟩ :: tail,
          stk := Stack.stkStart ⟨"", "profiles"⟩ :: S, err := none }
        ⟨⟨"", "profiles"⟩, []⟩ {} =
      some (none, { Id := id }, { input := tail, stk := S, err := none }) := by
  have hm : matchPath Profile.info [] "id" = PathMatch.perfect
      ⟨[], "id", storeValue unmarshalString (·.Id) (fun v s => { v with Id := s })⟩ := rfl
  simp only [Profile.unmarshal, unmarshalRecord]
  have e : extra + 2 = (extra + 1) + 1 := rfl
  rw [e, pathLoop_field_leaf Profile.info [] [] "id" id _ _ _ _ _ _ (by simp) hm, pathLoop_end]

theorem project_profiles_loop (S : List Stack) (tail : List Token) :
    ∀ (ids : List String) (v : MavenProject) (extra : Nat),
      pathLoop MavenProject.info (ids.length + (extra + 3))
          { input := ids.flatMap profilesElement ++ Token.EndElement ⟨"", "project"⟩ :: tail,
            stk := Stack.stkStart ⟨"", "project"⟩ :: S, err := none } [] v =
        some (none,
          { v with Profiles := v.Profiles ++ ids.map (fun id => ({ Id := id } : Profile)) },
          { input := tail, stk := S, err := none })
  | [], v, extra => by
    simp only [List.length_nil, Nat.zero_add, List.flatMap_nil, List.nil_append, pathLoop_end,
      List.map_nil, List.append_nil]
  | id :: ids, v, extra => by
    have e : (id :: ids).length + (extra + 3) = (ids.length + (extra + 3)) + 1 := by
      simp only [List.length_cons]; omega
    have e2 : ids.length + (extra + 3) = (ids.length + extra + 1) + 2 := by omega
    have hx := Profile_unmarshal_id id (Stack.stkStart ⟨"", "project"⟩ :: S)
      (ids.flatMap profilesElement ++ Token.EndElement ⟨"", "project"⟩ :: tail)
      (ids.length + extra + 1)
    rw [← e2] at hx
    have ih := project_profiles_loop S tail ids
      { v with Profiles := v.Profiles ++ [{ Id := id }] } extra
    rw [e, List.flatMap_cons]
    simp only [profilesElement, List.cons_append, List.nil_append]
    rw [pathLoop, Token_start _ _ _ (by simp)]
    simp only [MavenProject_match_profiles, storeSlice, hx]
    rw [ih]
    simp

theorem MavenProject_unmarshal_wrapper (v : MavenProject) (ids : List String)
    (S : List Stack) (tail : List Token) (extra : Nat) :
    MavenProject.unmarshal (ids.length + (extra + 3))
        { input := profilesWrapper ids ++ Token.EndElement ⟨"", "project"⟩ :: tail,
          stk := Stack.stkStart ⟨"", "project"⟩ :: S, err := none }
        ⟨⟨"", "project"⟩, []⟩ v =
      some (none,
        { v with XMLName := ⟨"", "project"⟩, Profiles := v.Profiles ++ [{}] },
        { input := tail, stk := S, err := none }) := by
  have e : ids.length + (extra + 3) = (ids.length + (extra + 1 + 1)) + 1 := by omega
  have e2 : ids.length + (extra + 1 + 1) = (ids.length + (extra + 1)) + 1 := by omega
  have hx := Profile_unmarshal_wrapper ids (Stack.stkStart ⟨"", "project"⟩ :: S)
    (Token.EndElement ⟨"", "project"⟩ :: tail) (extra + 1)
  simp only [MavenProject.unmarshal, unmarshalRecord, ne_eq, not_true_eq_false, if_false,
    profilesWrapper, List.cons_append, List.append_assoc, List.nil_append]
  rw [e, pathLoop, Token_start _ _ _ (by simp)]
  simp only [MavenProject_match_profiles, storeSlice, hx]
  rw [e2, pathLoop_end]

/-- C14: the field `Profiles` has the path `profiles` with no parent, while the
other list fields have a parent (`repositories>repository`,
`dependencies>dependency`, `pluginRepositories>pluginRepository`,
`modules>module`), and an element `profile` matches no field of the project
nor of a profile. So each element `profiles` directly under the project is
decoded into one `Profile` whose `Id` is the text of its direct child `id`,
and a wrapper `profiles` holding `k` children `profile` is decoded into one
`Profile` with empty `Id`, not into `k` profiles. -/
theorem C14_profiles_path (v : MavenProject) (ids : List String)
    (S : List Stack) (tail : List Token) (extra : Nat) :
    (matchPath MavenProject.info [] "profiles").path = some ([], some "profiles") ∧
    (matchPath MavenProject.info [] "profile").path = none ∧
    (matchPath Profile.info [] "id").path = some ([], some "id") ∧
    (matchPath Profile.info [] "profile").path = none ∧
    (matchPath MavenProject.info [] "repositories").path = some (["repositories"], none) ∧
    (matchPath MavenProject.info ["repositories"] "repository").path =
      some (["repositories"], some "repository") ∧
    (matchPath MavenProject.info [] "dependencies").path = some (["dependencies"], none) ∧
    (matchPath MavenProject.info ["dependencies"] "dependency").path =
      some (["dependencies"], some "dependency") ∧
    (matchPath MavenProject.info [] "pluginRepositories").path =
      some (["pluginRepositories"], none) ∧
    (matchPath MavenProject.info ["pluginRepositories"] "pluginRepository").path =
      some (["pluginRepositories"], some "pluginRepository") ∧
    (matchPath MavenProject.info [] "modules").path = some (["modules"], none) ∧
    (matchPath MavenProject.info ["modules"] "module").path =
      some (["modules"], some "module") ∧
    MavenProject.unmarshal (ids.length + (extra + 3))
        { input := ids.flatMap profilesElement ++ Token.EndElement ⟨"", "project"⟩ :: tail,
          stk := Stack.stkStart ⟨"", "project"⟩ :: S, err := none }
        ⟨⟨"", "project"⟩, []⟩ v =
      some (none,
        { v with XMLName := ⟨"", "project"⟩,
                 Profiles := v.Profiles ++ ids.map (fun id => ({ Id := id } : Profile)) },
        { input := tail, stk := S, err := none }) ∧
    MavenProject.unmarshal (ids.length + (extra + 3))
        { input := profilesWrapper ids ++ Token.EndElement ⟨"", "project"⟩ :: tail,
          stk := Stack.stkStart ⟨"", "project"⟩ :: S, err := none }
        ⟨⟨"", "project"⟩, []⟩ v =
      some (none,
        { v with XMLName := ⟨"", "project"⟩,
                 Profiles := v.Profiles ++ [{ Id := "", Build := {} }] },
        { input := tail, stk := S, err := none }) := by
  refine ⟨by decide, by decide, by decide, by decide, by decide, by decide, by decide, by decide,
    by decide, by decide, by decide, by decide, ?_, ?_⟩
  · simp only [MavenProject.unmarshal, unmarshalRecord, ne_eq, not_true_eq_false, if_false]
    exact project_profiles_loop S tail ids { v with XMLName := ⟨"", "project"⟩ } extra
  · exact MavenProject_unmarshal_wrapper v ids S tail extra

/-- A document with a wrapper `profiles` holding two children `profile`: one
profile with empty `Id` is decoded. -/
theorem profiles_wrapper_two :
    MavenProject.unmarshal 5
        { input := profilesWrapper ["p1", "p2"] ++ [Token.EndElement ⟨"", "project"⟩],
          stk := [Stack.stkStart ⟨"", "project"⟩], err := none }
        ⟨⟨"", "project"⟩, []⟩ {} =
      some (none, { XMLName := ⟨"", "project"⟩, Profiles := [{ Id := "" }] },
        { input := [], stk := [], err := none }) := by
  decide

end mvnparser
